import Mathlib

/-!
Verification development for the skin_care OCR data-normalization core.

This file gives a shallow embedding, in Lean 4, of the data-correction and
table-structure-inference engine of the repository (`azure_ai.py`,
`backend.py`, `backend_recipe.py`, `app.py`) and settles the
behavioural claims made about it, or refutes them where the code differs.

Modelling conventions:
* Python `str` is `String`; per-character work is done on `List Char`.
* Python dictionaries with string keys are association lists in insertion
  order; assignment replaces the first binding with the key or appends.
* `str.strip()` / regex `\s` are modelled over the ASCII whitespace set
  (space, tab, newline, carriage return, vertical tab, form feed); the
  claims never involve non-ASCII whitespace.
* `str.upper()` / `str.lower()` / `str.isalpha()` / regex `\d` are modelled
  on their ASCII fragment; the claims only involve ASCII letters and digits
  (plus Hangul text, which these functions leave untouched in Python too).
* Floating-point arithmetic (`math.log10`, `round(x, 1)`) is modelled by
  exact rational arithmetic; see `round_log10_x10` for the encoding.
-/

/-! ## Generic string helpers -/

/-- ASCII whitespace characters, the model of Python `str.strip()` and of
regex `\s` on the ASCII plane. -/
def pyIsSpace (c : Char) : Bool :=
  c = ' ' || c = '\t' || c = '\n' || c = '\r' || c = '\x0b' || c = '\x0c'

/-- Drop leading whitespace. -/
def dropLeading (l : List Char) : List Char := l.dropWhile pyIsSpace

/-- Both-ends whitespace trim on character lists (Python `str.strip()`). -/
def stripChars (l : List Char) : List Char :=
  ((dropLeading l).reverse.dropWhile pyIsSpace).reverse

/-- Python `value.strip()`. -/
def pstrip (s : String) : String := ⟨stripChars s.data⟩

/-- Check whether `p` occurs at the start of `l` (model of matching a
pattern at one position). -/
def leadsWith : List Char → List Char → Bool
  | [], _ => true
  | _ :: _, [] => false
  | p :: ps, c :: cs => p = c && leadsWith ps cs

/-- Check whether the pattern `pat` occurs as a contiguous substring of `l`
(Python `pat in s`). -/
def occursIn (pat : List Char) : List Char → Bool
  | [] => leadsWith pat []
  | c :: rest => leadsWith pat (c :: rest) || occursIn pat rest

/-- Worker for `removeAll`: with `skip = 0`, check for the pattern at the
current position; on a match, emit nothing and skip the remaining
`pat.length - 1` matched characters; otherwise keep the character.  This
is Python `s.replace(pat, '')`, which scans left to right without
re-scanning the substituted text. -/
def removeAllGo (pat : List Char) : Nat → List Char → List Char
  | _, [] => []
  | skip + 1, _ :: rest => removeAllGo pat skip rest
  | 0, c :: rest =>
    if leadsWith pat (c :: rest) then
      removeAllGo pat (pat.length - 1) rest
    else
      c :: removeAllGo pat 0 rest

/-- Python `s.replace(pat, '')` for a non-empty pattern. -/
def removeAll (pat : List Char) (l : List Char) : List Char :=
  removeAllGo pat 0 l

/-- ASCII uppercase model of Python `str.upper()` applied per character. -/
def pyUpperChar (c : Char) : Char := c.toUpper

/-- ASCII lowercase model of Python `str.lower()` applied per character. -/
def pyLowerChar (c : Char) : Char := c.toLower

/-- ASCII model of Python `str.isalpha()` on a single character. -/
def pyIsAlphaChar (c : Char) : Bool :=
  ('A' ≤ c && c ≤ 'Z') || ('a' ≤ c && c ≤ 'z')

/-! ## azure_ai.KolmarCosmeticOCR._clean_checkbox_and_newline -/

/-- Fixed vocabulary of OCR checkbox marker tokens removed by the cleaner,
in the order the source iterates over them. -/
def checkboxWords : List String :=
  [":selected:", ":unselected:", ":checked:", ":unchecked:",
   ":SELECTED:", ":UNSELECTED:", ":CHECKED:", ":UNCHECKED:",
   ":Selected:", ":Unselected:", ":Checked:", ":Unchecked:"]

/-- Embedding of `_clean_checkbox_and_newline`: remove each checkbox token
(in the listed order), drop newline and carriage-return characters, then
trim whitespace.  The Python `if not value: return ''` guard coincides with
running the pipeline on the empty string. -/
def clean_checkbox_and_newline (v : String) : String :=
  let l₁ := checkboxWords.foldl (fun acc w => removeAll w.data acc) v.data
  let l₂ := (l₁.filter (fun c => c ≠ '\n')).filter (fun c => c ≠ '\r')
  ⟨stripChars l₂⟩

/-! ## azure_ai.KolmarCosmeticOCR._validate_experiment_value -/

/-- Parse the regex fragment `\d+\.?\d*` at the head of `l` and return the
unconsumed remainder, or `none` when there is no leading digit.  All four
numeric patterns of `_validate_experiment_value` are anchored forms of this
fragment. -/
def parseNumPrefix (l : List Char) : Option (List Char) :=
  let ds := l.takeWhile Char.isDigit
  let r := l.dropWhile Char.isDigit
  if ds.isEmpty then none
  else
    match r with
    | '.' :: r₂ => some (r₂.dropWhile Char.isDigit)
    | _ => some r

/-- Regex `^\d+\.?\d*$` (pure integer or decimal). -/
def matchPlainNum (l : List Char) : Bool :=
  parseNumPrefix l = some []

/-- Regex `^[<>≤≥]\s*\d+\.?\d*$` (inequality-prefixed number). -/
def matchIneq (l : List Char) : Bool :=
  match l with
  | [] => false
  | c :: r =>
    (c = '<' || c = '>' || c = '≤' || c = '≥') &&
      matchPlainNum (r.dropWhile pyIsSpace)

/-- Regex `^\d+\.?\d*\s*[-~]\s*\d+\.?\d*$` (numeric range). -/
def matchRange (l : List Char) : Bool :=
  match parseNumPrefix l with
  | none => false
  | some r =>
    match r.dropWhile pyIsSpace with
    | [] => false
    | c :: r₂ =>
      (c = '-' || c = '~') && matchPlainNum (r₂.dropWhile pyIsSpace)

/-- Regex `^\d+\.?\d*%$` (percentage). -/
def matchPercent (l : List Char) : Bool :=
  parseNumPrefix l = some ['%']

/-- Python `'TO' in value.upper()`. -/
def containsTO (v : String) : Bool :=
  occursIn "TO".data (v.data.map pyUpperChar)

/-- Embedding of `_validate_experiment_value` (RULE 7): keep the value when
it carries TO-notation or matches one of the recognized numeric shapes,
otherwise coerce it to the string "0". -/
def validate_experiment_value (v : String) : String :=
  if v = "" then ""
  else
    let value := pstrip v
    if containsTO value then value
    else if matchPlainNum value.data then value
    else if matchIneq value.data then value
    else if matchRange value.data then value
    else if matchPercent value.data then value
    else if value = "0" || value = "0.0" then value
    else "0"

/-! ## azure_ai.KolmarCosmeticOCR._correct_phase -/

/-- Embedding of `_correct_phase` (RULE 6): trim, remove checkbox markers
and newlines, replace the OCR confusions 1→I, 0→O, l→I, 8→B (in the order
of the source's correction table) and uppercase the result. -/
def correct_phase (p : String) : String :=
  if p = "" then ""
  else
    let p₁ := clean_checkbox_and_newline (pstrip p)
    let l := p₁.data
    let l := l.map (fun c => if c = '1' then 'I' else c)
    let l := l.map (fun c => if c = '0' then 'O' else c)
    let l := l.map (fun c => if c = 'l' then 'I' else c)
    let l := l.map (fun c => if c = '8' then 'B' else c)
    ⟨l.map pyUpperChar⟩

/-! ## Records (the Python ingredient dictionaries)

An ingredient is one Python dictionary.  Its string-valued entries
(`Phase`, `Code`, `Raw_Materials` and one entry per measurement
identifier) are kept as an association list in insertion order; the
`_corrections` entry, whose value is itself a map from identifier to a
provenance flag, is modelled as a separate field of the structure (a fresh
record has no `_corrections` key, i.e. an empty list). -/

/-- Provenance flags recorded by the correction rules. -/
inductive CorrectionFlag where
  | filled_zero
  | copied
deriving DecidableEq, Repr

/-- One extracted table row. -/
structure Ingredient where
  fields : List (String × String)
  corrections : List (String × CorrectionFlag)
deriving DecidableEq, Repr

/-- Python `d.get(k, '')` on the string-valued entries. -/
def aget (m : List (String × String)) (k : String) : String :=
  match m.find? (fun p => p.1 = k) with
  | some p => p.2
  | none => ""

/-- Python `k in d` on the string-valued entries. -/
def hasKey (m : List (String × String)) (k : String) : Bool :=
  (m.find? (fun p => p.1 = k)).isSome

/-- Python `d[k] = v`: replace the first binding of `k`, else append. -/
def aset (m : List (String × String)) (k v : String) : List (String × String) :=
  match m with
  | [] => [(k, v)]
  | p :: rest => if p.1 = k then (k, v) :: rest else p :: aset rest k v

/-- Python loop `for key in ingredient.keys(): if key.lower() == 'code'`:
the value under the first key whose lowercasing is "code". -/
def findCode (m : List (String × String)) : Option String :=
  (m.find? (fun p => p.1.data.map pyLowerChar = "code".data)).map (fun p => p.2)

/-- Python truthiness of the looked-up code (`if not code: continue`). -/
def codeTruthy : Option String → Bool
  | none => false
  | some s => s ≠ ""

/-! ## azure_ai.KolmarCosmeticOCR._detect_empty_columns -/

/-- Embedding of `_detect_empty_columns` (RULE 8): the measurement columns
whose value is empty after stripping in every ingredient, in column order. -/
def detect_empty_columns (ingredients : List Ingredient)
    (experimentCols : List String) : List String :=
  experimentCols.filter
    (fun c => ingredients.all (fun ing => pstrip (aget ing.fields c) = ""))

/-! ## azure_ai.KolmarCosmeticOCR._apply_data_correction_rules -/

/-- Backward search of RULE 3: walk the indices `idx-1, …, 0` of the
measurement-column list, skip columns in the empty-column set, and return
the first stripped value that is non-empty. -/
def findPrevValue (f : List (String × String)) (allCols : List String)
    (emptyCols : List String) : Nat → Option String
  | 0 => none
  | i + 1 =>
    let c := allCols.getD i ""
    if emptyCols.contains c then findPrevValue f allCols emptyCols i
    else
      let v := pstrip (aget f c)
      if v ≠ "" then some v else findPrevValue f allCols emptyCols i

/-- RULES 1 and 3, per ingredient: walk the measurement columns in order;
a blank first column is zero-filled (flag `filled_zero`); a blank later
column outside the empty-column set copies the nearest valid earlier value
(flag `copied`) and is left blank when none exists. -/
def rule13Go (allCols : List String) (emptyCols : List String) :
    Nat → List String → List (String × String) →
    List (String × CorrectionFlag) →
    List (String × String) × List (String × CorrectionFlag)
  | _, [], f, fl => (f, fl)
  | idx, c :: rest, f, fl =>
    let cur := pstrip (aget f c)
    if idx = 0 then
      if cur = "" then
        rule13Go allCols emptyCols (idx + 1) rest (aset f c "0")
          (fl ++ [(c, CorrectionFlag.filled_zero)])
      else rule13Go allCols emptyCols (idx + 1) rest f fl
    else
      if cur = "" then
        if emptyCols.contains c then rule13Go allCols emptyCols (idx + 1) rest f fl
        else
          match findPrevValue f allCols emptyCols idx with
          | some v =>
            rule13Go allCols emptyCols (idx + 1) rest (aset f c v)
              (fl ++ [(c, CorrectionFlag.copied)])
          | none => rule13Go allCols emptyCols (idx + 1) rest f fl
      else rule13Go allCols emptyCols (idx + 1) rest f fl

/-- RULE 7, per ingredient: re-validate every non-empty value outside the
empty-column set and overwrite it when validation changes it. -/
def rule7Go (emptyCols : List String) :
    List String → List (String × String) → List (String × String)
  | [], f => f
  | c :: rest, f =>
    if emptyCols.contains c then rule7Go emptyCols rest f
    else
      let cur := pstrip (aget f c)
      if cur ≠ "" then
        let validated := validate_experiment_value cur
        if validated ≠ cur then rule7Go emptyCols rest (aset f c validated)
        else rule7Go emptyCols rest f
      else rule7Go emptyCols rest f

/-- RULE 6 of the per-ingredient pass: when the `Phase` key is present and
the OCR correction changes its value, overwrite it. -/
def rule6Phase (f₀ : List (String × String)) : List (String × String) :=
  if hasKey f₀ "Phase" then
    if aget f₀ "Phase" ≠ correct_phase (aget f₀ "Phase") then
      aset f₀ "Phase" (correct_phase (aget f₀ "Phase"))
    else f₀
  else f₀

/-- RULE 4 of the per-ingredient pass: when the (corrected) phase is blank
inherit the previous phase, else it becomes the new `prev_phase`. -/
def rule4Phase (prevPhase : String) (f₁ : List (String × String)) :
    List (String × String) × String :=
  if pstrip (aget f₁ "Phase") = "" then (aset f₁ "Phase" prevPhase, prevPhase)
  else (f₁, aget f₁ "Phase")

/-- RULES 6 and 4 combined, threading the `prev_phase` state. -/
def phaseSteps (prevPhase : String) (f₀ : List (String × String)) :
    List (String × String) × String :=
  rule4Phase prevPhase (rule6Phase f₀)

/-- Per-ingredient body of `_apply_data_correction_rules`, threading the
`prev_phase` state: RULE 6 (phase OCR correction), RULE 4 (phase
inheritance), then — only when the row has a truthy code — RULES 1/3 and
RULE 7 and the installation of the `_corrections` map.  Rows without a code
are left with their incoming corrections (the Python `continue` skips the
`_corrections` assignment too). -/
def processIngredient (experimentCols emptyCols : List String)
    (prevPhase : String) (ing : Ingredient) : Ingredient × String :=
  let ph := phaseSteps prevPhase ing.fields
  if codeTruthy (findCode ph.1) then
    let step := rule13Go experimentCols emptyCols 0 experimentCols ph.1 []
    let f₃ := rule7Go emptyCols experimentCols step.1
    (⟨f₃, step.2⟩, ph.2)
  else
    (⟨ph.1, ing.corrections⟩, ph.2)

/-- Fold of `processIngredient` over the rows, carrying `prev_phase`. -/
def applyGo (experimentCols emptyCols : List String) :
    String → List Ingredient → List Ingredient
  | _, [] => []
  | prevPhase, ing :: rest =>
    let step := processIngredient experimentCols emptyCols prevPhase ing
    step.1 :: applyGo experimentCols emptyCols step.2 rest

/-- Embedding of `_apply_data_correction_rules`: with no measurement
columns the rows pass through untouched; otherwise the empty-column set is
computed once and the per-row rules run in order with `prev_phase`
initially empty. -/
def apply_data_correction_rules (ingredients : List Ingredient)
    (experimentCols : List String) : List Ingredient :=
  if experimentCols.isEmpty then ingredients
  else
    let emptyCols := detect_empty_columns ingredients experimentCols
    applyGo experimentCols emptyCols "" ingredients

/-! ## azure_ai.KolmarCosmeticOCR._infer_missing_experiment_ids

The partial identifier mapping `column index → raw identifier` is an
association list over `Nat` keys.  `string.ascii_uppercase` is the
alphabet list below. -/

/-- Python `result.get(col)`. -/
def nget (m : List (Nat × String)) (k : Nat) : Option String :=
  (m.find? (fun p => p.1 = k)).map (fun p => p.2)

/-- Python `result[col] = v` on the `Nat`-keyed mapping. -/
def nset (m : List (Nat × String)) (k : Nat) (v : String) : List (Nat × String) :=
  match m with
  | [] => [(k, v)]
  | p :: rest => if p.1 = k then (k, v) :: rest else p :: nset rest k v

/-- The uppercase alphabet `list(string.ascii_uppercase)`. -/
def alphabet : List Char := "ABCDEFGHIJKLMNOPQRSTUVWXYZ".data

/-- Python `len(s) == 1 and s.isalpha()`. -/
def singleAlpha (s : String) : Bool :=
  match s.data with
  | [c] => pyIsAlphaChar c
  | _ => false

/-- Position of a single-letter identifier in the alphabet,
`alphabet.index(s)`.  The source raises `ValueError` when the identifier is
alphabetic but not an uppercase Latin letter; that situation is outside the
scope of every claim (identifiers reaching this point are uppercase), and
the embedding is only used under `singleAlpha` guards with uppercase
letters. -/
def alphaIndex (s : String) : Nat :=
  List.indexOf (s.data.getD 0 'A') alphabet

/-- Insertion sort on naturals (Python `sorted` / `list.sort`). -/
def insertNat (x : Nat) : List Nat → List Nat
  | [] => [x]
  | y :: r => if x ≤ y then x :: y :: r else y :: insertNat x r

/-- Sort a list of column indices. -/
def sortNat (l : List Nat) : List Nat := l.foldr insertNat []

/-- Stage 1 of `_infer_missing_experiment_ids`, one column: strip `-`/`_`
from identifiers such as "H-", then correct the digit identifiers "0" (to
"D" after "C", to "O" after "N") and "1" (to "I").  Lookups of the previous
column see the mutations made for earlier columns, as in the source. -/
def stage1Step (sortedCols : List Nat) (m : List (Nat × String)) (col : Nat) :
    List (Nat × String) :=
  let e₀ := nget m col
  let cleanup :=
    match e₀ with
    | some s =>
      if s ≠ "" && s.data.contains '-' then
        let cleaned := pstrip ⟨s.data.filter (fun c => c ≠ '-' && c ≠ '_')⟩
        if cleaned.length = 1 && cleaned.data.all pyIsAlphaChar then
          (nset m col cleaned, some cleaned)
        else (m, some s)
      else (m, e₀)
    | none => (m, none)
  let m₁ := cleanup.1
  match cleanup.2 with
  | some s =>
    if s = "0" then
      let idx := List.indexOf col sortedCols
      if idx > 0 then
        match nget m₁ (sortedCols.getD (idx - 1) 0) with
        | some prev =>
          if prev = "C" then nset m₁ col "D"
          else if prev = "N" then nset m₁ col "O"
          else m₁
        | none => m₁
      else m₁
    else if s = "1" then nset m₁ col "I"
    else m₁
  | none => m₁

/-- Truthy neighbour lookup of stage 2: the identifier currently assigned
to the column at position `j` of the sorted list, when it is non-empty. -/
def neighborId (m : List (Nat × String)) (allCols : List Nat) (j : Nat) :
    Option String :=
  match nget m (allCols.getD j 0) with
  | some s => if s ≠ "" then some s else none
  | none => none

/-- Inference from a resolved right neighbour only (the `elif next_id`
branch): the letter immediately preceding it, with Python's `(n - 1) % 26`
wraparound; a non-letter neighbour falls back to the placeholder. -/
def inferFromNext (col : Nat) : Option String → String
  | some n =>
    if singleAlpha n then ⟨[alphabet.getD ((alphaIndex n + 25) % 26) 'A']⟩
    else "Col_" ++ toString col
  | none => "Col_" ++ toString col

/-- Stage-2 inference for one unresolved column from its resolved
neighbours: a single-letter left neighbour is advanced by one position
(wrapping Z to A); when a single-letter right neighbour exists, the
candidate is kept only if its alphabet position is before the right
neighbour's (the comparison is over `ℤ`, mirroring Python's
`next_idx - 1`), else the placeholder `Col_<index>` is used; with no
usable left neighbour the right neighbour's predecessor is used; with
neither, the placeholder. -/
def inferId (col : Nat) : Option String → Option String → String
  | some p, nextId =>
    if singleAlpha p then
      let eidx := (alphaIndex p + 1) % 26
      let cand : String := ⟨[alphabet.getD eidx 'A']⟩
      match nextId with
      | some n =>
        if singleAlpha n then
          if (eidx : ℤ) < (alphaIndex n : ℤ) ∨ (eidx : ℤ) = (alphaIndex n : ℤ) - 1 then
            cand
          else "Col_" ++ toString col
        else cand
      | none => cand
    else inferFromNext col nextId
  | none, nextId => inferFromNext col nextId

/-- Stage 2 of `_infer_missing_experiment_ids`, iterating with the index
`i` over the sorted column list: a column with no truthy identifier gets
the identifier inferred from its nearest neighbours. -/
def stage2Go (allCols : List Nat) : Nat → List Nat → List (Nat × String) →
    List (Nat × String)
  | _, [], m => m
  | i, col :: rest, m =>
    let hasId : Bool := match nget m col with | some s => s ≠ "" | none => false
    if hasId then stage2Go allCols (i + 1) rest m
    else
      let prevId := if i > 0 then neighborId m allCols (i - 1) else none
      let nextId := if i + 1 < allCols.length then neighborId m allCols (i + 1) else none
      stage2Go allCols (i + 1) rest (nset m col (inferId col prevId nextId))

/-- Embedding of `_infer_missing_experiment_ids`: digit/punctuation
correction (stage 1) followed by neighbour-based inference of the missing
identifiers (stage 2), both walking the columns in sorted order. -/
def infer_missing_experiment_ids (experimentCols : List Nat)
    (experimentIds : List (Nat × String)) : List (Nat × String) :=
  let sortedCols := sortNat experimentCols
  let m₁ := sortedCols.foldl (stage1Step sortedCols) experimentIds
  stage2Go sortedCols 0 sortedCols m₁

/-! ## azure_ai.KolmarCosmeticOCR._identify_columns — continuity pass

The measurement-column acceptance loop ends with the continuity check of
lines 1082–1121, which fills single-column gaps.  A table is a sparse map
`row index → (column index → trimmed content)`, as built from the layout
cells. -/

/-- Sparse OCR table: rows keyed by index, each row an association list of
column index to content. -/
def TableMatrix := List (Nat × List (Nat × String))

/-- Python `row in matrix and col in matrix[row]` followed by indexing. -/
def mget (m : TableMatrix) (row col : Nat) : Option String :=
  match m.find? (fun p => p.1 = row) with
  | some p => (p.2.find? (fun q => q.1 = col)).map (fun q => q.2)
  | none => none

/-- Identifier-row content of a column after checkbox cleaning and removal
of every non-alphanumeric character (`re.sub(r'[^A-Za-z0-9]', '', …)`). -/
def idClean (m : TableMatrix) (expIdRow col : Nat) : Option String :=
  (mget m expIdRow col).map
    (fun v =>
      ⟨(stripChars (clean_checkbox_and_newline v).data).filter
        (fun c => Char.isDigit c || pyIsAlphaChar c)⟩)

/-- Python `range(a, b)`. -/
def rangeList (a b : Nat) : List Nat := List.range' a (b - a)

/-- Stage 1 of the continuity check: candidate columns between the name
column and the first accepted measurement column — those whose
identifier-row cell exists and either cleans to non-empty content or sit
directly before the first accepted column. -/
def continuityPre (m : TableMatrix) (expIdRow nameCol firstExpCol : Nat) :
    List Nat :=
  (rangeList (nameCol + 1) firstExpCol).filter
    (fun c =>
      match idClean m expIdRow c with
      | some cleaned => cleaned ≠ "" || c = firstExpCol - 1
      | none => false)

/-- Stage 2 of the continuity check: all columns inside a gap between two
consecutive accepted measurement columns. -/
def continuityGaps (experimentCols : List Nat) : List Nat :=
  (experimentCols.zip experimentCols.tail).flatMap
    (fun p => rangeList (p.1 + 1) p.2)

/-- Embedding of the continuity check at the end of `_identify_columns`
(lines 1082–1121): for a non-empty accepted list the two candidate sets
are collected; when candidates exist they are appended and the list
re-sorted. -/
def identify_columns_continuity (m : TableMatrix) (expIdRow nameCol : Nat)
    (experimentCols : List Nat) : List Nat :=
  match experimentCols.head? with
  | none => experimentCols
  | some firstExpCol =>
    let missing := continuityPre m expIdRow nameCol firstExpCol ++
      continuityGaps experimentCols
    if missing.isEmpty then experimentCols
    else sortNat (experimentCols ++ missing)

/-! ## backend_recipe.process_recipe_page — spare experiment column -/

/-- Worker for `_generate_experiment_column_name`, the Excel-style base-26
loop.  The fuel bound strictly dominates the loop counter, which shrinks at
every iteration. -/
def genColGo : Nat → Nat → String → String
  | 0, _, acc => acc
  | fuel + 1, ei, acc =>
    if ei = 0 then acc
    else
      let e := ei - 1
      genColGo fuel (e / 26) (String.mk [Char.ofNat (65 + e % 26)] ++ acc)

/-- Embedding of `_generate_experiment_column_name`: Excel-style column
names starting at U (index 0 → U, 5 → Z, 6 → AA, …). -/
def generate_experiment_column_name (index : Nat) : String :=
  genColGo (22 + index) (21 + index) ""

/-- Successor name for the spare column: `chr(ord(last) + 1)` for a
single-character identifier, otherwise the identifier with its final
character's code point incremented (`last[:-1] + chr(ord(last[-1]) + 1)`).
The source raises `IndexError` on an empty identifier, which cannot occur
(the branch runs only on members of a generated column list); the
embedding is used under that assumption. -/
def nextColumnName (last : String) : String :=
  if last.length = 1 then ⟨[Char.ofNat ((last.data.getD 0 'A').toNat + 1)]⟩
  else ⟨last.data.dropLast ++ [Char.ofNat ((last.data.getLastD 'A').toNat + 1)]⟩

/-- Embedding of the spare-column step of `process_recipe_page` (lines
125–143): when the experiment-column list is non-empty, append one extra
identifier derived from the last one and give every record that identifier
with the empty-string value; the correction maps are not touched. -/
def addSpareColumn (expCols : List String) (data : List Ingredient) :
    List String × List Ingredient :=
  match expCols.getLast? with
  | none => (expCols, data)
  | some last =>
    let nc := nextColumnName last
    (expCols ++ [nc],
     data.map (fun ing => ⟨aset ing.fields nc "", ing.corrections⟩))

/-! ## backend.FallbackManager and the page-carried state -/

/-- State of `FallbackManager`: the FIFO queue of grouping-key pairs, the
E.coli row counter, and the current test/prescription numbers. -/
structure FallbackState where
  fallbackPairs : List (String × String)
  ecoliCount : Nat
  currentTestNumber : Option String
  currentPrescriptionNumber : Option String
deriving DecidableEq, Repr

/-- `FallbackManager.reset` / `__init__`: everything cleared. -/
def FallbackState.reset : FallbackState :=
  ⟨[], 0, none, none⟩

/-- Per-session page state of `app.py`: the current page number, the
`last_date_info` date quadruple kept in the Streamlit session, and the
fallback manager. -/
structure SessionState where
  currentPage : Nat
  lastDateInfo : List (String × String)
  fallback : FallbackState
deriving DecidableEq, Repr

/-- Embedding of the next-page button handler (`app.py` lines 397–402):
the page number advances and the fallback manager is reset; nothing else
in the session changes. -/
def advanceToNextPage (s : SessionState) : SessionState :=
  ⟨s.currentPage + 1, s.lastDateInfo, FallbackState.reset⟩

/-- Embedding of the date handling after an OCR run (`app.py` lines
311–324): a date dictionary with some truthy value is stored and used;
otherwise a previously stored quadruple is reused; otherwise no date is
shown.  Returns the dates used for the page and the updated session. -/
def resolveDateInfo (newInfo : List (String × String)) (s : SessionState) :
    List (String × String) × SessionState :=
  if ¬newInfo.isEmpty && newInfo.any (fun p => p.2 ≠ "") then
    (newInfo, ⟨s.currentPage, newInfo, s.fallback⟩)
  else if ¬s.lastDateInfo.isEmpty then (s.lastDateInfo, s)
  else ([], s)

/-- Modelled from the spec and `backend.py` lines 260–310: the state logic
of `DataCleaner.extract_date_info`, with the HTML date parsing abstracted
into the optional `parsed` argument (the quadruple parsed from row 1, when
parsing succeeds).  On success the class-level `last_date_info` cache is
overwritten; on failure the cached quadruple from an earlier page — never
reset between pages — is returned. -/
def extract_date_info (parsed : Option (List (String × String)))
    (lastDateInfo : List (String × String)) :
    List (String × String) × List (String × String) :=
  match parsed with
  | some info => (info, info)
  | none =>
    if ¬lastDateInfo.isEmpty then (lastDateInfo, lastDateInfo)
    else ([], lastDateInfo)

/-! ## backend.DataCleaner.convert_to_log -/

/-- Result of `convert_to_log`: the source returns either a string (the
inequality forms and the unparseable pass-through) or a Python float (the
rounded logarithm), modelled exactly as a rational. -/
inductive LogResult where
  | str (s : String)
  | num (q : ℚ)
deriving DecidableEq, Repr

/-- Regex search `re.search(r'<10\^(\d+)', s)`: the digits after the first
occurrence of `<10^` that is followed by at least one digit. -/
def searchLtPow : List Char → Option String
  | [] => none
  | c :: rest =>
    if leadsWith "<10^".data (c :: rest) then
      let ds := (List.drop 4 (c :: rest)).takeWhile Char.isDigit
      if ds.isEmpty then searchLtPow rest else some ⟨ds⟩
    else searchLtPow rest

/-- Regex search `re.search(r'≤(\d+)', s)`. -/
def searchLeNum : List Char → Option String
  | [] => none
  | c :: rest =>
    if c = '≤' then
      let ds := rest.takeWhile Char.isDigit
      if ds.isEmpty then searchLeNum rest else some ⟨ds⟩
    else searchLeNum rest

/-- Regex match `re.match(r'([0-9.]+)×10\^(\d+)', s)` at the start of the
string: the greedy digits-and-dots group, the literal `×10^`, and the
exponent digits. -/
def matchExpNotation (l : List Char) : Option (String × String) :=
  let g₁ := l.takeWhile (fun c => Char.isDigit c || c = '.')
  let r := l.dropWhile (fun c => Char.isDigit c || c = '.')
  if g₁.isEmpty then none
  else if leadsWith "×10^".data r then
    let ds := (List.drop 4 r).takeWhile Char.isDigit
    if ds.isEmpty then none else some (⟨g₁⟩, ⟨ds⟩)
  else none

/-- Value of a digit list (most significant first). -/
def digitsVal (l : List Char) : Nat :=
  l.foldl (fun acc c => acc * 10 + (c.toNat - 48)) 0

/-- Mantissa of a Python float literal: `digits`, `digits.digits*` or
`.digits`, returning the digit value, the fraction length and the
unconsumed remainder. -/
def parseMantissa (l : List Char) : Option (Nat × Nat × List Char) :=
  let ip := l.takeWhile Char.isDigit
  let rest₁ := l.dropWhile Char.isDigit
  match rest₁ with
  | c :: r₂ =>
    if c = '.' then
      let fp := r₂.takeWhile Char.isDigit
      if ip.isEmpty && fp.isEmpty then none
      else some (digitsVal (ip ++ fp), fp.length, r₂.dropWhile Char.isDigit)
    else if ip.isEmpty then none else some (digitsVal ip, 0, rest₁)
  | [] => if ip.isEmpty then none else some (digitsVal ip, 0, [])

/-- Exponent part of a Python float literal: empty, or `e`/`E` with an
optional sign and digits running to the end of the string. -/
def parseExponent : List Char → Option ℤ
  | [] => some 0
  | c :: r =>
    if c = 'e' ∨ c = 'E' then
      let es : ℤ × List Char :=
        match r with
        | c₂ :: r₂ => if c₂ = '+' then (1, r₂) else if c₂ = '-' then (-1, r₂) else (1, r)
        | [] => (1, [])
      let ed := es.2.takeWhile Char.isDigit
      if ed.isEmpty || es.2.dropWhile Char.isDigit ≠ [] then none
      else some (es.1 * (digitsVal ed : ℤ))
    else none

/-- Float parsing on a whitespace-trimmed character list: optional sign,
mantissa, exponent. -/
def floatOfStringAux (l : List Char) : Option ℚ :=
  let sign : ℚ × List Char :=
    match l with
    | c :: r => if c = '+' then (1, r) else if c = '-' then ((-1 : ℚ), r) else (1, l)
    | [] => (1, l)
  match parseMantissa sign.2 with
  | none => none
  | some (m, fracLen, rest₂) =>
    match parseExponent rest₂ with
    | none => none
    | some e => some (sign.1 * (m : ℚ) * (10 : ℚ) ^ (e - (fracLen : ℤ)))

/-- Model of Python `float(s)` restricted to finite decimal and
exponent-notation literals (optional surrounding whitespace, optional
sign, `digits`, `digits.digits*`, `.digits`, optional `e`/`E` exponent).
The special forms `inf`/`nan` and underscore digit separators are not
modelled; no claim involves them. -/
def floatOfString (s : String) : Option ℚ :=
  floatOfStringAux (stripChars s.data)

/-- Exact model of `round(math.log10(q), 1)` for a positive rational `q`:
`round(10·log10 q)` equals `⌊10·log10 q + 1/2⌋ = ⌊log10(q^20·10)/2⌋`,
which is the integer floor-division of `Int.log 10 (q^20·10)` by two.
(Banker's rounding at a tie never differs here: `10·log10 q = k + 1/2`
would force `q^20 = 10^(2k+1)`, impossible for rational `q` since the
left side has even multiplicity at every prime.) -/
def round_log10_x10 (q : ℚ) : ℤ :=
  (Int.log 10 (q ^ 20 * 10)).fdiv 2

/-- Rounded base-10 logarithm of `q`, one decimal place. -/
def roundLog10 (q : ℚ) : ℚ :=
  (round_log10_x10 q : ℚ) / 10

/-- Embedding of `DataCleaner.convert_to_log`: inequality forms map to
`<`-prefixed log-of-threshold strings, exponential and plain numeric forms
map to the rounded logarithm, and anything else (including non-positive
numbers, whose `math.log10` raises) passes through unchanged. -/
def convert_to_log (cfuValue : String) : LogResult :=
  if cfuValue = "" then LogResult.str ""
  else if cfuValue.data.contains '<' then
    if occursIn "10^".data cfuValue.data then
      match searchLtPow cfuValue.data with
      | some ds => LogResult.str ("<" ++ ds ++ ".0")
      | none => LogResult.str "<1.0"
    else if cfuValue.data.contains '≤' then
      match searchLeNum cfuValue.data with
      | some ds => LogResult.str ("<" ++ ds ++ ".0")
      | none => LogResult.str "<1.0"
    else LogResult.str "<1.0"
  else
    match matchExpNotation cfuValue.data with
    | some (baseStr, expDs) =>
      match floatOfString baseStr with
      | some b =>
        if 0 < b then LogResult.num (roundLog10 (b * (10 : ℚ) ^ (digitsVal expDs.data)))
        else LogResult.str cfuValue
      | none => LogResult.str cfuValue
    | none =>
      match floatOfString cfuValue with
      | some q =>
        if 0 < q then LogResult.num (roundLog10 q)
        else LogResult.str cfuValue
      | none => LogResult.str cfuValue

/-! ## Generic lemmas about the string helpers -/

theorem dropWhile_dropWhile (p : α → Bool) (l : List α) :
    List.dropWhile p (List.dropWhile p l) = List.dropWhile p l := by
  cases h : List.dropWhile p l with
  | nil => rfl
  | cons a as =>
    have hhd := List.head?_dropWhile_not p l
    rw [h] at hhd
    simp only [List.head?_cons, Option.all_some] at hhd
    rw [List.dropWhile_cons_of_neg]
    simp [hhd]

theorem head_not_space_of_dropLeading (l : List Char) (a : Char)
    (h : (dropLeading l).head? = some a) : pyIsSpace a = false := by
  have hhd := List.head?_dropWhile_not pyIsSpace l
  rw [dropLeading] at h
  rw [h] at hhd
  simpa using hhd

theorem dropWhile_eq_self_of_head (p : α → Bool) (l : List α)
    (h : ∀ a, l.head? = some a → p a = false) : List.dropWhile p l = l := by
  cases l with
  | nil => rfl
  | cons a as =>
    rw [List.dropWhile_cons_of_neg]
    simp [h a rfl]

theorem getLast?_dropWhile (p : α → Bool) (l : List α)
    (h : List.dropWhile p l ≠ []) :
    (List.dropWhile p l).getLast? = l.getLast? := by
  induction l with
  | nil => simp at h
  | cons a as ih =>
    by_cases hp : p a
    · rw [List.dropWhile_cons_of_pos hp] at h ⊢
      have has : as ≠ [] := by
        intro hnil; rw [hnil] at h; simp at h
      rw [ih h]
      cases as with
      | nil => exact absurd rfl has
      | cons b bs => rw [List.getLast?_cons_cons]
    · rw [List.dropWhile_cons_of_neg hp]

theorem mem_stripChars {a : Char} {l : List Char} (h : a ∈ stripChars l) :
    a ∈ l := by
  rw [stripChars, List.mem_reverse] at h
  have h₁ := (List.dropWhile_sublist (l := (dropLeading l).reverse) pyIsSpace).mem h
  rw [List.mem_reverse] at h₁
  exact (List.dropWhile_sublist (l := l) pyIsSpace).mem h₁

theorem stripChars_idem (l : List Char) :
    stripChars (stripChars l) = stripChars l := by
  by_cases hS : stripChars l = []
  · rw [hS]; rfl
  · have hB : (dropLeading l).reverse.dropWhile pyIsSpace ≠ [] := by
      intro hnil
      apply hS
      rw [stripChars, hnil]
      rfl
    have hA : dropLeading l ≠ [] := by
      intro hnil
      apply hB
      rw [hnil]
      rfl
    have hhead : ∀ a, (stripChars l).head? = some a → pyIsSpace a = false := by
      intro a ha
      rw [stripChars, List.head?_reverse] at ha
      rw [getLast?_dropWhile _ _ hB, List.getLast?_reverse] at ha
      exact head_not_space_of_dropLeading l a ha
    show stripChars (stripChars l) = stripChars l
    rw [stripChars, dropLeading,
      dropWhile_eq_self_of_head pyIsSpace (stripChars l) hhead]
    show ((((dropLeading l).reverse.dropWhile pyIsSpace).reverse.reverse).dropWhile
        pyIsSpace).reverse = stripChars l
    rw [List.reverse_reverse, dropWhile_dropWhile]
    rfl

theorem removeAll_of_not_occurs (pat : List Char) :
    ∀ l, occursIn pat l = false → removeAll pat l = l := by
  intro l
  induction l with
  | nil => intro _; rfl
  | cons c rest ih =>
    intro h
    rw [occursIn, Bool.or_eq_false_iff] at h
    show removeAllGo pat 0 (c :: rest) = c :: rest
    rw [removeAllGo, if_neg (by simp [h.1])]
    exact congrArg (c :: ·) (ih h.2)

theorem foldl_removeAll_id :
    ∀ (ws : List String) (l : List Char),
      (∀ w ∈ ws, occursIn w.data l = false) →
      ws.foldl (fun acc w => removeAll w.data acc) l = l := by
  intro ws
  induction ws with
  | nil => intro l _; rfl
  | cons w ws ih =>
    intro l h
    rw [List.foldl_cons, removeAll_of_not_occurs _ _ (h w (by simp)),
      ih l (fun v hv => h v (by simp [hv]))]

theorem pstrip_idem (s : String) : pstrip (pstrip s) = pstrip s := by
  show (⟨stripChars (stripChars s.data)⟩ : String) = ⟨stripChars s.data⟩
  rw [stripChars_idem]

/-! ## Claim C5 -/

/-- Claim C5 (corrected), counterexample: the cell cleaner is not
idempotent as stated.  Removing the newline from `":selec\nted:"` creates
the checkbox token `":selected:"`, which only a second pass removes. -/
theorem clean_not_idempotent :
    clean_checkbox_and_newline (clean_checkbox_and_newline ":selec\nted:") ≠
      clean_checkbox_and_newline ":selec\nted:" ∧
    clean_checkbox_and_newline ":selec\nted:" = ":selected:" ∧
    clean_checkbox_and_newline ":selected:" = "" := by
  have h₁ : clean_checkbox_and_newline ":selec\nted:" = ":selected:" := by decide
  have h₂ : clean_checkbox_and_newline ":selected:" = "" := by decide
  refine ⟨?_, h₁, h₂⟩
  rw [h₁, h₂]
  decide

theorem clean_eq (v : String) :
    clean_checkbox_and_newline v =
      ⟨stripChars (((checkboxWords.foldl (fun acc w => removeAll w.data acc)
        v.data).filter (fun c => c ≠ '\n')).filter (fun c => c ≠ '\r'))⟩ := rfl

/-- Claim C5 (corrected), amended: `_clean_checkbox_and_newline` is
idempotent on every string whose single-pass result contains no checkbox
token; in general a pass can create a fresh token out of removed newlines
or nested markers, and a second pass then differs. -/
theorem clean_idempotent_marker_free (s : String)
    (h : ∀ w ∈ checkboxWords,
      occursIn w.data (clean_checkbox_and_newline s).data = false) :
    clean_checkbox_and_newline (clean_checkbox_and_newline s) =
      clean_checkbox_and_newline s := by
  have hdata : (clean_checkbox_and_newline s).data =
      stripChars (((checkboxWords.foldl (fun acc w => removeAll w.data acc)
        s.data).filter (fun c => c ≠ '\n')).filter (fun c => c ≠ '\r')) := by
    rw [clean_eq]
  have hmem : ∀ a : Char, a ∈ (clean_checkbox_and_newline s).data →
      a ≠ '\n' ∧ a ≠ '\r' := by
    intro a ha
    rw [hdata] at ha
    have h₁ := mem_stripChars ha
    rw [List.mem_filter] at h₁
    obtain ⟨h₂, hr⟩ := h₁
    rw [List.mem_filter] at h₂
    obtain ⟨_, hn⟩ := h₂
    constructor
    · simpa using hn
    · simpa using hr
  conv_lhs => rw [clean_eq]
  rw [foldl_removeAll_id checkboxWords _ h]
  have hfn : List.filter (fun c => decide (c ≠ '\n'))
      (clean_checkbox_and_newline s).data = (clean_checkbox_and_newline s).data :=
    List.filter_eq_self.mpr (fun a ha => by simp [(hmem a ha).1])
  have hfr : List.filter (fun c => decide (c ≠ '\r'))
      (clean_checkbox_and_newline s).data = (clean_checkbox_and_newline s).data :=
    List.filter_eq_self.mpr (fun a ha => by simp [(hmem a ha).2])
  rw [hfn, hfr]
  conv_lhs => rw [hdata, stripChars_idem]
  rw [← hdata]

/-- Claim C5, witness for the amended theorem at a marker-free input. -/
theorem clean_idempotent_marker_free_witness :
    clean_checkbox_and_newline (clean_checkbox_and_newline " ab c ") =
      clean_checkbox_and_newline " ab c " :=
  clean_idempotent_marker_free " ab c " (by decide)

/-! ## Association-list lemmas -/

theorem aget_aset_self (f : List (String × String)) (k v : String) :
    aget (aset f k v) k = v := by
  induction f with
  | nil => simp [aset, aget, List.find?]
  | cons p rest ih =>
    by_cases h : p.1 = k
    · simp [aset, h, aget, List.find?]
    · simp only [aset, if_neg h]
      rw [aget, List.find?_cons_of_neg _ (by simpa using h)]
      exact ih

theorem aget_aset_ne (f : List (String × String)) (k v k' : String)
    (h : k ≠ k') : aget (aset f k v) k' = aget f k' := by
  induction f with
  | nil =>
    rw [aset, aget, List.find?_cons_of_neg _ (by simpa using h)]
    rfl
  | cons p rest ih =>
    by_cases hp : p.1 = k
    · rw [aset, if_pos hp, aget, List.find?_cons_of_neg _ (by simpa using h),
        aget, List.find?_cons_of_neg _ (by simp [hp]; exact h)]
    · rw [aset, if_neg hp]
      by_cases hp' : p.1 = k'
      · rw [aget, List.find?_cons_of_pos _ (by simpa using hp'),
          aget, List.find?_cons_of_pos _ (by simpa using hp')]
      · rw [aget, List.find?_cons_of_neg _ (by simpa using hp'),
          aget, List.find?_cons_of_neg _ (by simpa using hp')]
        exact ih

theorem nget_nset_self (m : List (Nat × String)) (k : Nat) (v : String) :
    nget (nset m k v) k = some v := by
  induction m with
  | nil => simp [nset, nget, List.find?]
  | cons p rest ih =>
    by_cases h : p.1 = k
    · simp [nset, h, nget, List.find?]
    · simp only [nset, if_neg h]
      rw [nget, List.find?_cons_of_neg _ (by simpa using h)]
      exact ih

theorem nget_nset_ne (m : List (Nat × String)) (k : Nat) (v : String)
    (k' : Nat) (h : k ≠ k') : nget (nset m k v) k' = nget m k' := by
  induction m with
  | nil =>
    rw [nset, nget, List.find?_cons_of_neg _ (by simpa using h)]
    rfl
  | cons p rest ih =>
    by_cases hp : p.1 = k
    · rw [nset, if_pos hp, nget, List.find?_cons_of_neg _ (by simpa using h),
        nget, List.find?_cons_of_neg _ (by simp [hp]; exact h)]
    · rw [nset, if_neg hp]
      by_cases hp' : p.1 = k'
      · rw [nget, List.find?_cons_of_pos _ (by simpa using hp'),
          nget, List.find?_cons_of_pos _ (by simpa using hp')]
      · rw [nget, List.find?_cons_of_neg _ (by simpa using hp'),
          nget, List.find?_cons_of_neg _ (by simpa using hp')]
        exact ih

/-! ## Claim C8 -/

/-- Claim C8 (corrected), amended: at a page change only the grouping-key
component of the carried state is reset — `FallbackManager.reset` clears
the pair queue, the counters and the current test/prescription numbers —
while the last-known date quadruple deliberately survives the page change
and is reused whenever a later page yields no date of its own. -/
theorem page_advance_resets_fallback_only :
    (∀ s : SessionState,
      (advanceToNextPage s).fallback = FallbackState.reset ∧
      (advanceToNextPage s).currentPage = s.currentPage + 1 ∧
      (advanceToNextPage s).lastDateInfo = s.lastDateInfo) ∧
    (∀ last : List (String × String), last ≠ [] →
      extract_date_info none last = (last, last)) := by
  constructor
  · intro s
    exact ⟨rfl, rfl, rfl⟩
  · intro last h
    rw [extract_date_info, if_pos (by simpa using h)]

/-- Claim C8, witness: the general theorem applied to a concrete session
and a concrete cached date quadruple. -/
theorem page_advance_resets_fallback_only_witness :
    (advanceToNextPage ⟨1, [("date_0", "04/01")], FallbackState.reset⟩).fallback =
      FallbackState.reset ∧
    extract_date_info none [("date_0", "04/01")] =
      ([("date_0", "04/01")], [("date_0", "04/01")]) :=
  ⟨(page_advance_resets_fallback_only.1 ⟨1, [("date_0", "04/01")], FallbackState.reset⟩).1,
   page_advance_resets_fallback_only.2 [("date_0", "04/01")] (by decide)⟩

/-- Claim C8 (corrected), counterexample: the date quadruple carried in the
session survives `advanceToNextPage` unchanged, and processing the next
page without a date of its own reuses it — so the second component of the
carried state is not reset at a page change. -/
theorem date_info_survives_page_advance :
    (advanceToNextPage
        ⟨1, [("date_0", "04/01"), ("date_7", "04/08")],
         ⟨[("25E15I14", "GB1919")], 2, some "25E15I14", some "GB1919"⟩⟩).lastDateInfo =
      [("date_0", "04/01"), ("date_7", "04/08")] ∧
    (resolveDateInfo []
        (advanceToNextPage
          ⟨1, [("date_0", "04/01"), ("date_7", "04/08")],
           ⟨[("25E15I14", "GB1919")], 2, some "25E15I14", some "GB1919"⟩⟩)).1 =
      [("date_0", "04/01"), ("date_7", "04/08")] := by
  exact ⟨rfl, by decide⟩

/-! ## Claim C10 -/

/-- Claim C10 (corrected), counterexample: with a multi-character last
identifier the appended spare column is not the single character one code
point past the final character — after "AA" (which
`_generate_experiment_column_name` produces for index 6) the appended
identifier is "AB", not "B". -/
theorem spare_column_multichar :
    generate_experiment_column_name 6 = "AA" ∧
    (addSpareColumn ["AA"] []).1 = ["AA", "AB"] ∧
    nextColumnName "AA" ≠ "B" := by
  exact ⟨by decide, by decide, by decide⟩

/-- Claim C10 (corrected), amended: whenever the experiment-column list is
non-empty, exactly one spare identifier is appended; it is the last
identifier with its final character's code point incremented (for a
single-character identifier this is just the incremented character, so
after "Z" comes "[", not a letter); every record gains the new identifier
with the empty-string value, its other fields and its correction map
untouched. -/
theorem spare_column_appended (expCols : List String) (data : List Ingredient)
    (last : String) (hlast : expCols.getLast? = some last) (hne : last ≠ "") :
    (addSpareColumn expCols data).1 = expCols ++ [nextColumnName last] ∧
    (nextColumnName last).data =
      last.data.dropLast ++ [Char.ofNat ((last.data.getLastD 'A').toNat + 1)] ∧
    nextColumnName "Z" = "[" ∧
    pyIsAlphaChar '[' = false ∧
    ∀ i ing, data.get? i = some ing →
      ∃ ing', (addSpareColumn expCols data).2.get? i = some ing' ∧
        aget ing'.fields (nextColumnName last) = "" ∧
        ing'.corrections = ing.corrections ∧
        ∀ k, k ≠ nextColumnName last → aget ing'.fields k = aget ing.fields k := by
  have hstep : addSpareColumn expCols data =
      (expCols ++ [nextColumnName last],
       data.map (fun ing => ⟨aset ing.fields (nextColumnName last) "", ing.corrections⟩)) := by
    rw [addSpareColumn, hlast]
  refine ⟨by rw [hstep], ?_, by decide, by decide, ?_⟩
  · match hd : last.data with
    | [] =>
      exact absurd (by cases last with | mk d => cases hd; rfl) hne
    | [c] =>
      rw [nextColumnName, if_pos (by cases last with | mk d => cases hd; rfl)]
      cases last with | mk d => cases hd; rfl
    | c :: c' :: cs =>
      rw [nextColumnName, if_neg (by cases last with | mk d => cases hd; simp [String.length])]
      cases last with | mk d => cases hd; rfl
  · intro i ing hi
    refine ⟨⟨aset ing.fields (nextColumnName last) "", ing.corrections⟩, ?_, ?_, rfl, ?_⟩
    · rw [hstep]
      have hi' : data[i]? = some ing := by simpa using hi
      simp [List.getElem?_map, hi']
    · exact aget_aset_self _ _ _
    · intro k hk
      exact aget_aset_ne _ _ _ _ (fun h => hk h.symm)

/-- Claim C10, witness for the amended theorem at a concrete table. -/
theorem spare_column_appended_witness :
    (addSpareColumn ["U", "V"] [⟨[("Code", "ABC"), ("U", "1"), ("V", "2")], []⟩]).1 =
      ["U", "V", "W"] :=
  (spare_column_appended ["U", "V"] [⟨[("Code", "ABC"), ("U", "1"), ("V", "2")], []⟩]
    "V" (by decide) (by decide)).1

/-! ## Claim C9 -/

theorem takeWhile_eq_nil_of_all (p : α → Bool) (l : List α)
    (h : ∀ c ∈ l, p c = false) : l.takeWhile p = [] := by
  cases l with
  | nil => rfl
  | cons a as => simp [List.takeWhile_cons, h a (by simp)]

theorem dropWhile_eq_self_of_all (p : α → Bool) (l : List α)
    (h : ∀ c ∈ l, p c = false) : l.dropWhile p = l := by
  cases l with
  | nil => rfl
  | cons a as => simp [List.dropWhile_cons, h a (by simp)]

theorem parseMantissa_none_of_no_digits (l : List Char)
    (h : ∀ c ∈ l, Char.isDigit c = false) : parseMantissa l = none := by
  have hip : l.takeWhile Char.isDigit = [] := takeWhile_eq_nil_of_all _ _ h
  have hrest : l.dropWhile Char.isDigit = l := dropWhile_eq_self_of_all _ _ h
  cases l with
  | nil => rfl
  | cons c r₂ =>
    simp only [parseMantissa, hip, hrest]
    by_cases hc : c = '.'
    · have hfp : r₂.takeWhile Char.isDigit = [] :=
        takeWhile_eq_nil_of_all _ _ (fun a ha => h a (by simp [ha]))
      simp [hc, hfp]
    · simp [hc]

theorem floatOfStringAux_none_of_no_digits (l : List Char)
    (h : ∀ c ∈ l, Char.isDigit c = false) : floatOfStringAux l = none := by
  cases l with
  | nil => rfl
  | cons c r =>
    have hr : parseMantissa r = none :=
      parseMantissa_none_of_no_digits r (fun a ha => h a (by simp [ha]))
    have hl : parseMantissa (c :: r) = none := parseMantissa_none_of_no_digits _ h
    by_cases hp : c = '+'
    · simp [floatOfStringAux, hp, hr]
    · by_cases hm : c = '-'
      · simp [floatOfStringAux, hp, hm, hr]
      · simp [floatOfStringAux, hp, hm, hl]

theorem floatOfString_none_of_no_digits (s : String)
    (h : ∀ c ∈ s.data, Char.isDigit c = false) : floatOfString s = none :=
  floatOfStringAux_none_of_no_digits _ (fun a ha => h a (mem_stripChars ha))

theorem matchExpNotation_none_of_no_digits (l : List Char)
    (h : ∀ c ∈ l, Char.isDigit c = false) : matchExpNotation l = none := by
  simp only [matchExpNotation]
  by_cases h₁ : (l.takeWhile fun c => Char.isDigit c || c = '.').isEmpty
  · rw [if_pos h₁]
  · rw [if_neg h₁]
    by_cases h₂ : leadsWith "×10^".data (l.dropWhile fun c => Char.isDigit c || c = '.')
    · rw [if_pos h₂]
      have hds : ((List.drop 4 (l.dropWhile fun c => Char.isDigit c || c = '.')).takeWhile
          Char.isDigit) = [] := by
        refine takeWhile_eq_nil_of_all _ _ (fun a ha => h a ?_)
        exact (List.dropWhile_sublist _).mem (List.mem_of_mem_drop ha)
      rw [hds]
      rfl
    · rw [if_neg h₂]

/-- Claim C9 (confirmed): `convert_to_log` maps "<10^2" to the string
"<2.0", and "100" to the number 2.0 — the base-10 logarithm rounded to one
decimal, a Python float in the source, modelled as the exact rational; an
input the function cannot parse (here: digit-free and without the
inequality marker that triggers the string branches) is returned
unchanged. -/
theorem convert_to_log_spec :
    convert_to_log "<10^2" = LogResult.str "<2.0" ∧
    convert_to_log "100" = LogResult.num 2 ∧
    ∀ s : String, s ≠ "" → s.data.contains '<' = false →
      (∀ c ∈ s.data, Char.isDigit c = false) →
      convert_to_log s = LogResult.str s := by
  refine ⟨by decide, ?_, ?_⟩
  · have hq : floatOfString "100" = some (100 : ℚ) := by
      have h : floatOfString "100" =
          some ((1 : ℚ) * ((100 : ℕ) : ℚ) * (10 : ℚ) ^ ((0 : ℤ) - ((0 : ℕ) : ℤ))) := by rfl
      rw [h]; norm_num
    have hlog : roundLog10 (100 : ℚ) = 2 := by
      unfold roundLog10 round_log10_x10
      have h : ((100 : ℚ) ^ 20 * 10) = (((10 : ℕ) : ℚ)) ^ (41 : ℤ) := by
        push_cast; norm_num
      rw [h, Int.log_zpow (by norm_num : 1 < 10)]
      norm_num [Int.fdiv]
    have hm : matchExpNotation "100".data = none := by decide
    unfold convert_to_log
    rw [if_neg (by decide), if_neg (by decide), hm, hq]
    simp only []
    rw [if_pos (by norm_num : (0 : ℚ) < 100), hlog]
  · intro s hne hlt hnd
    have hexp := matchExpNotation_none_of_no_digits s.data hnd
    have hfl := floatOfString_none_of_no_digits s hnd
    unfold convert_to_log
    rw [if_neg hne, if_neg (by rw [hlt]; simp), hexp, hfl]

/-- Claim C9, witness: the pass-through branch of the theorem at a
concrete unparseable input. -/
theorem convert_to_log_spec_witness :
    convert_to_log "검출안됨" = LogResult.str "검출안됨" :=
  convert_to_log_spec.2.2 "검출안됨" (by decide) (by decide) (by decide)

/-! ## Claims C2 and C6 -/

theorem nget_nil (k : Nat) : nget [] k = none := rfl

theorem nget_cons (a : Nat) (v : String) (m : List (Nat × String)) (k : Nat) :
    nget ((a, v) :: m) k = if a = k then some v else nget m k := by
  by_cases h : a = k
  · rw [nget, List.find?_cons_of_pos _ (by simpa using h), if_pos h]
    rfl
  · rw [nget, List.find?_cons_of_neg _ (by simpa using h), if_neg h]; rfl

theorem stage1Step_skip (sortedCols : List Nat) (m : List (Nat × String))
    (col : Nat) (s : String) (hs : nget m col = some s)
    (h1 : s.data.contains '-' = false) (h2 : s ≠ "0") (h3 : s ≠ "1") :
    stage1Step sortedCols m col = m := by
  have h1' : '-' ∉ s.data := by simpa using h1
  rw [stage1Step, hs]
  simp [h1', h2, h3]

theorem stage1Step_none (sortedCols : List Nat) (m : List (Nat × String))
    (col : Nat) (h : nget m col = none) : stage1Step sortedCols m col = m := by
  rw [stage1Step, h]

theorem stage2Go_nil (allCols : List Nat) (i : Nat) (m : List (Nat × String)) :
    stage2Go allCols i [] m = m := rfl

theorem stage2Go_skip (allCols : List Nat) (i col : Nat) (rest : List Nat)
    (m : List (Nat × String)) (s : String) (hs : nget m col = some s)
    (hne : s ≠ "") :
    stage2Go allCols i (col :: rest) m = stage2Go allCols (i + 1) rest m := by
  rw [stage2Go, hs]
  simp [hne]

theorem stage2Go_missing (allCols : List Nat) (i col : Nat) (rest : List Nat)
    (m : List (Nat × String)) (h : nget m col = none) :
    stage2Go allCols i (col :: rest) m =
      stage2Go allCols (i + 1) rest
        (nset m col (inferId col
          (if i > 0 then neighborId m allCols (i - 1) else none)
          (if i + 1 < allCols.length then neighborId m allCols (i + 1) else none))) := by
  rw [stage2Go, h]
  rfl

theorem infer_eq (cols : List Nat) (ids : List (Nat × String)) :
    infer_missing_experiment_ids cols ids =
      stage2Go (sortNat cols) 0 (sortNat cols)
        (List.foldl (stage1Step (sortNat cols)) ids (sortNat cols)) := rfl

theorem inferId_of_both (col : Nat) (p n : String) (hp : singleAlpha p = true)
    (hn : singleAlpha n = true)
    (hlt : ((alphaIndex p + 1) % 26 : ℤ) < (alphaIndex n : ℤ) ∨
      ((alphaIndex p + 1) % 26 : ℤ) = (alphaIndex n : ℤ) - 1) :
    inferId col (some p) (some n) =
      ⟨[alphabet.getD ((alphaIndex p + 1) % 26) 'A']⟩ := by
  rw [inferId, if_pos hp]
  simp only []
  rw [if_pos hn, if_pos (by simpa using hlt)]

theorem inferId_of_next_only (col : Nat) (n : String) (hn : singleAlpha n = true) :
    inferId col none (some n) = ⟨[alphabet.getD ((alphaIndex n + 25) % 26) 'A']⟩ := by
  rw [inferId, inferFromNext, if_pos hn]

/-- Claim C2 (confirmed): for a three-column sequence with identifiers
A (left) and C (right) and the middle unresolved, inference assigns B; for
B and C resolved and the first column unresolved (no left neighbour), the
first column is assigned A. -/
theorem infer_ids_neighbor_inference (c1 c2 c3 : Nat) (h12 : c1 < c2)
    (h23 : c2 < c3) :
    nget (infer_missing_experiment_ids [c1, c2, c3] [(c1, "A"), (c3, "C")]) c2 =
      some "B" ∧
    nget (infer_missing_experiment_ids [c1, c2, c3] [(c2, "B"), (c3, "C")]) c1 =
      some "A" := by
  have ne12 : c1 ≠ c2 := Nat.ne_of_lt h12
  have ne23 : c2 ≠ c3 := Nat.ne_of_lt h23
  have ne13 : c1 ≠ c3 := Nat.ne_of_lt (h12.trans h23)
  have hsort : sortNat [c1, c2, c3] = [c1, c2, c3] := by
    simp [sortNat, insertNat, h12.le, h23.le]
  constructor
  · have hg1 : nget [(c1, "A"), (c3, "C")] c1 = some "A" := by
      simp [nget_cons]
    have hg2 : nget [(c1, "A"), (c3, "C")] c2 = none := by
      simp [nget_cons, ne12, Ne.symm ne23, nget_nil]
    have hg3 : nget [(c1, "A"), (c3, "C")] c3 = some "C" := by
      simp [nget_cons, ne13]
    have hfold : List.foldl (stage1Step [c1, c2, c3]) [(c1, "A"), (c3, "C")]
        [c1, c2, c3] = [(c1, "A"), (c3, "C")] := by
      rw [List.foldl_cons,
        stage1Step_skip _ _ _ _ hg1 (by decide) (by decide) (by decide),
        List.foldl_cons, stage1Step_none _ _ _ hg2,
        List.foldl_cons,
        stage1Step_skip _ _ _ _ hg3 (by decide) (by decide) (by decide),
        List.foldl_nil]
    rw [infer_eq, hsort, hfold]
    rw [stage2Go_skip _ 0 _ _ _ _ hg1 (by decide)]
    rw [stage2Go_missing _ 1 _ _ _ hg2]
    have hP : (if (1 : Nat) > 0 then
        neighborId [(c1, "A"), (c3, "C")] [c1, c2, c3] (1 - 1) else none) =
        some "A" := by
      rw [if_pos (by decide)]
      show neighborId [(c1, "A"), (c3, "C")] [c1, c2, c3] 0 = some "A"
      rw [neighborId]
      simp [List.getD, hg1]
    have hN : (if 1 + 1 < ([c1, c2, c3] : List Nat).length then
        neighborId [(c1, "A"), (c3, "C")] [c1, c2, c3] (1 + 1) else none) =
        some "C" := by
      rw [if_pos (by simp)]
      rw [neighborId]
      simp [List.getD, hg3]
    rw [hP, hN, inferId_of_both c2 "A" "C" (by decide) (by decide) (by decide)]
    have hg3' : nget (nset [(c1, "A"), (c3, "C")] c2
        (⟨[alphabet.getD ((alphaIndex "A" + 1) % 26) 'A']⟩ : String)) c3 = some "C" :=
      (nget_nset_ne _ _ _ _ ne23).trans hg3
    rw [stage2Go_skip _ 2 _ _ _ _ hg3' (by decide), stage2Go_nil]
    rw [nget_nset_self]
    decide
  · have hg1 : nget [(c2, "B"), (c3, "C")] c1 = none := by
      simp [nget_cons, Ne.symm ne12, Ne.symm ne13, nget_nil]
    have hg2 : nget [(c2, "B"), (c3, "C")] c2 = some "B" := by
      simp [nget_cons]
    have hg3 : nget [(c2, "B"), (c3, "C")] c3 = some "C" := by
      simp [nget_cons, ne23]
    have hfold : List.foldl (stage1Step [c1, c2, c3]) [(c2, "B"), (c3, "C")]
        [c1, c2, c3] = [(c2, "B"), (c3, "C")] := by
      rw [List.foldl_cons, stage1Step_none _ _ _ hg1,
        List.foldl_cons,
        stage1Step_skip _ _ _ _ hg2 (by decide) (by decide) (by decide),
        List.foldl_cons,
        stage1Step_skip _ _ _ _ hg3 (by decide) (by decide) (by decide),
        List.foldl_nil]
    rw [infer_eq, hsort, hfold]
    rw [stage2Go_missing _ 0 _ _ _ hg1]
    have hP : (if (0 : Nat) > 0 then
        neighborId [(c2, "B"), (c3, "C")] [c1, c2, c3] (0 - 1) else none) =
        none := by
      rw [if_neg (by decide)]
    have hN : (if 0 + 1 < ([c1, c2, c3] : List Nat).length then
        neighborId [(c2, "B"), (c3, "C")] [c1, c2, c3] (0 + 1) else none) =
        some "B" := by
      rw [if_pos (by simp)]
      rw [neighborId]
      simp [List.getD, hg2]
    rw [hP, hN, inferId_of_next_only c1 "B" (by decide)]
    have hg2' : nget (nset [(c2, "B"), (c3, "C")] c1
        (⟨[alphabet.getD ((alphaIndex "B" + 25) % 26) 'A']⟩ : String)) c2 = some "B" :=
      (nget_nset_ne _ _ _ _ ne12).trans hg2
    have hg3' : nget (nset [(c2, "B"), (c3, "C")] c1
        (⟨[alphabet.getD ((alphaIndex "B" + 25) % 26) 'A']⟩ : String)) c3 = some "C" :=
      (nget_nset_ne _ _ _ _ ne13).trans hg3
    rw [stage2Go_skip _ 1 _ _ _ _ hg2' (by decide),
      stage2Go_skip _ 2 _ _ _ _ hg3' (by decide), stage2Go_nil]
    rw [nget_nset_self]
    decide

/-- Claim C2, witness at the concrete columns 4, 5, 6. -/
theorem infer_ids_neighbor_inference_witness :
    nget (infer_missing_experiment_ids [4, 5, 6] [(4, "A"), (6, "C")]) 5 =
      some "B" ∧
    nget (infer_missing_experiment_ids [4, 5, 6] [(5, "B"), (6, "C")]) 4 =
      some "A" :=
  infer_ids_neighbor_inference 4 5 6 (by decide) (by decide)

/-- Claim C6 (corrected), counterexample: the identifiers after inference
need not be pairwise distinct, and a colliding inferred letter is not
replaced by the placeholder when no resolved right neighbour exists.  With
identifiers A, Z on the first two of three columns, the third is inferred
by wrapping Z to A, so A is assigned twice and no placeholder is used. -/
theorem infer_ids_duplicate_identifiers :
    nget (infer_missing_experiment_ids [0, 1, 2] [(0, "A"), (1, "Z")]) 0 =
      some "A" ∧
    nget (infer_missing_experiment_ids [0, 1, 2] [(0, "A"), (1, "Z")]) 2 =
      some "A" := by
  exact ⟨by decide, by decide⟩

set_option maxHeartbeats 4000000 in
/-- Claim C6 (corrected), amended: the only duplicate protection in
`_infer_missing_experiment_ids` is the ordering check against a resolved
right neighbour — for a column inferred from a resolved left letter, the
placeholder replaces the advanced letter exactly when that letter's
alphabet position is not before the right neighbour's (Python's
`expected_idx < next_idx or expected_idx == next_idx - 1`); pairwise
distinctness of the final identifiers is not otherwise enforced
(see the counterexample). -/
theorem infer_ids_ordering_guard :
    ∀ i : Nat, i < 26 → ∀ j : Nat, j < 26 →
      nget (infer_missing_experiment_ids [0, 1, 2]
        [(0, (⟨[alphabet.getD i 'A']⟩ : String)), (2, (⟨[alphabet.getD j 'A']⟩ : String))]) 1 =
      some (if ((i + 1) % 26 : ℤ) < (j : ℤ) ∨ ((i + 1) % 26 : ℤ) = (j : ℤ) - 1
        then (⟨[alphabet.getD ((i + 1) % 26) 'A']⟩ : String) else "Col_1") := by
  decide

/-- Claim C6, witness: the guard theorem at A (left) and C (right), where
the ordering check passes and the inferred letter B is kept. -/
theorem infer_ids_ordering_guard_witness :
    nget (infer_missing_experiment_ids [0, 1, 2]
      [(0, (⟨[alphabet.getD 0 'A']⟩ : String)), (2, (⟨[alphabet.getD 2 'A']⟩ : String))]) 1 =
    some (if ((0 + 1) % 26 : ℤ) < (2 : ℤ) ∨ ((0 + 1) % 26 : ℤ) = (2 : ℤ) - 1
      then (⟨[alphabet.getD ((0 + 1) % 26) 'A']⟩ : String) else "Col_1") :=
  infer_ids_ordering_guard 0 (by decide) 2 (by decide)

/-! ## Claim C7 -/

theorem mem_insertNat (a x : Nat) (l : List Nat) :
    a ∈ insertNat x l ↔ a = x ∨ a ∈ l := by
  induction l with
  | nil => simp [insertNat]
  | cons y r ih =>
    by_cases h : x ≤ y
    · simp [insertNat, h]
    · simp only [insertNat, if_neg h, List.mem_cons, ih]
      tauto

theorem mem_sortNat (a : Nat) (l : List Nat) : a ∈ sortNat l ↔ a ∈ l := by
  induction l with
  | nil => simp [sortNat]
  | cons x r ih =>
    show a ∈ insertNat x (sortNat r) ↔ _
    rw [mem_insertNat, ih]
    simp

theorem mem_rangeList (a lo hi : Nat) : a ∈ rangeList lo hi ↔ lo ≤ a ∧ a < hi := by
  rw [rangeList, List.mem_range'_1]
  omega

theorem zip_tail_mem {l : List Nat} {p : Nat × Nat} (h : p ∈ l.zip l.tail) :
    p.1 ∈ l ∧ p.2 ∈ l := by
  have h₁ := List.of_mem_zip (by exact h)
  exact ⟨h₁.1, List.mem_of_mem_tail h₁.2⟩

theorem head_le_of_pairwise {c : Nat} {rest : List Nat}
    (hp : (c :: rest).Pairwise (· < ·)) {a : Nat} (ha : a ∈ c :: rest) :
    c ≤ a := by
  rcases List.mem_cons.mp ha with h | h
  · omega
  · exact le_of_lt ((List.pairwise_cons.mp hp).1 a h)

theorem straddle_pair :
    ∀ (l : List Nat), l.Pairwise (· < ·) → ∀ x a b, a ∈ l → b ∈ l →
      a < x → x < b → x ∉ l →
      ∃ p ∈ l.zip l.tail, p.1 < x ∧ x < p.2 := by
  intro l
  induction l with
  | nil => intro _ x a b ha; simp at ha
  | cons c rest ih =>
    intro hp x a b ha hb hax hxb hx
    obtain ⟨hc, hrest⟩ := List.pairwise_cons.mp hp
    cases rest with
    | nil =>
      rw [List.mem_singleton] at ha hb
      subst ha; subst hb
      omega
    | cons d rest' =>
      by_cases hxd : x < d
      · have hac : a = c := by
          rcases List.mem_cons.mp ha with h | h
          · exact h
          · have := head_le_of_pairwise hrest h
            omega
        refine ⟨(c, d), ?_, ?_, hxd⟩
        · show (c, d) ∈ (c, d) :: (d :: rest').zip rest'
          exact List.mem_cons_self _ _
        · omega
      · have hdx : d < x := by
          have hxne : x ≠ d := fun h => hx (h ▸ by simp)
          omega
        have hcx : c < x := by
          have : c < d := hc d (by simp)
          omega
        have hb' : b ∈ d :: rest' := by
          rcases List.mem_cons.mp hb with h | h
          · omega
          · exact h
        obtain ⟨p, hpz, h1, h2⟩ :=
          ih hrest x d b (by simp) hb' hdx hxb (fun h => hx (List.mem_cons_of_mem _ h))
        exact ⟨p, List.mem_cons_of_mem _ hpz, h1, h2⟩

theorem mem_continuityPre (m : TableMatrix) (expIdRow nameCol firstExpCol c : Nat) :
    c ∈ continuityPre m expIdRow nameCol firstExpCol ↔
      (nameCol < c ∧ c < firstExpCol ∧
       ∃ cleaned, idClean m expIdRow c = some cleaned ∧
         (cleaned ≠ "" ∨ c = firstExpCol - 1)) := by
  rw [continuityPre, List.mem_filter, mem_rangeList]
  constructor
  · rintro ⟨⟨h₁, h₂⟩, hpred⟩
    refine ⟨by omega, h₂, ?_⟩
    cases hcl : idClean m expIdRow c with
    | none => rw [hcl] at hpred; simp at hpred
    | some cleaned =>
      rw [hcl] at hpred
      refine ⟨cleaned, rfl, ?_⟩
      simpa using hpred
  · rintro ⟨h₁, h₂, cleaned, hcl, hor⟩
    refine ⟨⟨by omega, h₂⟩, ?_⟩
    rw [hcl]
    simpa using hor

theorem mem_continuityGaps (expCols : List Nat) (c : Nat) :
    c ∈ continuityGaps expCols ↔
      ∃ p ∈ expCols.zip expCols.tail, p.1 < c ∧ c < p.2 := by
  rw [continuityGaps, List.mem_flatMap]
  constructor
  · rintro ⟨p, hp, hc⟩
    rw [mem_rangeList] at hc
    exact ⟨p, hp, by omega, hc.2⟩
  · rintro ⟨p, hp, h1, h2⟩
    exact ⟨p, hp, by rw [mem_rangeList]; omega⟩

/-- Claim C7 (corrected), amended: after initial acceptance the
gap-filling pass of `_identify_columns` produces exactly the accepted
columns, every column strictly between two accepted columns, and every
column strictly between the name column and the first accepted column
whose identifier-row cell exists and either cleans to non-empty content or
sits directly before the first accepted column.  (The original claim's
"only if non-empty identifier-row content" misses the directly-preceding
case.) -/
theorem continuity_gap_filling (m : TableMatrix) (expIdRow nameCol : Nat)
    (expCols : List Nat) (hsorted : expCols.Pairwise (· < ·))
    (hne : expCols ≠ []) (col : Nat) :
    col ∈ identify_columns_continuity m expIdRow nameCol expCols ↔
      (col ∈ expCols ∨
       (∃ a ∈ expCols, ∃ b ∈ expCols, a < col ∧ col < b) ∨
       (nameCol < col ∧ col < expCols.headD 0 ∧
        ∃ cleaned, idClean m expIdRow col = some cleaned ∧
          (cleaned ≠ "" ∨ col = expCols.headD 0 - 1))) := by
  cases expCols with
  | nil => exact absurd rfl hne
  | cons first rest =>
    have hhead : (first :: rest).headD 0 = first := rfl
    rw [hhead]
    have hdef : identify_columns_continuity m expIdRow nameCol (first :: rest) =
        (if (continuityPre m expIdRow nameCol first ++
            continuityGaps (first :: rest)).isEmpty then (first :: rest)
         else sortNat ((first :: rest) ++
           (continuityPre m expIdRow nameCol first ++
            continuityGaps (first :: rest)))) := rfl
    rw [hdef]
    have hpre := mem_continuityPre m expIdRow nameCol first col
    have hgap := mem_continuityGaps (first :: rest) col
    by_cases hemp : (continuityPre m expIdRow nameCol first ++
        continuityGaps (first :: rest)).isEmpty
    · rw [if_pos hemp]
      rw [List.isEmpty_iff, List.append_eq_nil] at hemp
      constructor
      · intro hmem
        exact Or.inl hmem
      · rintro (hmem | ⟨a, ha, b, hb, hax, hxb⟩ | hcase)
        · exact hmem
        · by_cases hin : col ∈ first :: rest
          · exact hin
          · obtain ⟨p, hpz, h1, h2⟩ :=
              straddle_pair _ hsorted col a b ha hb hax hxb hin
            have : col ∈ continuityGaps (first :: rest) :=
              hgap.mpr ⟨p, hpz, h1, h2⟩
            rw [hemp.2] at this
            simp at this
        · have : col ∈ continuityPre m expIdRow nameCol first :=
            hpre.mpr hcase
          rw [hemp.1] at this
          simp at this
    · rw [if_neg hemp, mem_sortNat, List.mem_append, List.mem_append]
      constructor
      · rintro (hmem | hmem | hmem)
        · exact Or.inl hmem
        · exact Or.inr (Or.inr (hpre.mp hmem))
        · obtain ⟨p, hpz, h1, h2⟩ := hgap.mp hmem
          obtain ⟨hp1, hp2⟩ := zip_tail_mem hpz
          exact Or.inr (Or.inl ⟨p.1, hp1, p.2, hp2, h1, h2⟩)
      · rintro (hmem | ⟨a, ha, b, hb, hax, hxb⟩ | hcase)
        · exact Or.inl hmem
        · by_cases hin : col ∈ first :: rest
          · exact Or.inl hin
          · obtain ⟨p, hpz, h1, h2⟩ :=
              straddle_pair _ hsorted col a b ha hb hax hxb hin
            exact Or.inr (Or.inr (hgap.mpr ⟨p, hpz, h1, h2⟩))
        · exact Or.inr (Or.inl (hpre.mpr hcase))

/-- Claim C7, witness: the characterization applied to a gap table,
confirming the gap column 3 between the accepted columns 2 and 4 is
added. -/
theorem continuity_gap_filling_witness :
    3 ∈ identify_columns_continuity [] 1 0 [2, 4] :=
  (continuity_gap_filling [] 1 0 [2, 4] (by simp) (by simp) 3).mpr
    (Or.inr (Or.inl ⟨2, by simp, 4, by simp, by omega, by omega⟩))

/-- Claim C7 (corrected), counterexample: a column directly before the
first accepted measurement column is added even though its identifier-row
content is empty — the cell at row 1, column 4 cleans to the empty string,
yet column 4 is inserted because it equals `first accepted - 1`. -/
theorem continuity_adds_blank_column :
    idClean [(1, [(4, "")])] 1 4 = some "" ∧
    identify_columns_continuity [(1, [(4, "")])] 1 2 [5, 6] = [4, 5, 6] := by
  exact ⟨by decide, by decide⟩

/-! ## Correction-engine lemmas (claims C1, C3, C4) -/

theorem rule13Go_nil (A E : List String) (idx : Nat) (f : List (String × String))
    (fl : List (String × CorrectionFlag)) : rule13Go A E idx [] f fl = (f, fl) := rfl

theorem rule13Go_zero_empty (A E : List String) (c : String) (rest : List String)
    (f : List (String × String)) (fl : List (String × CorrectionFlag))
    (h : pstrip (aget f c) = "") :
    rule13Go A E 0 (c :: rest) f fl =
      rule13Go A E 1 rest (aset f c "0") (fl ++ [(c, CorrectionFlag.filled_zero)]) := by
  rw [rule13Go]
  simp [h]

theorem rule13Go_zero_nonempty (A E : List String) (c : String) (rest : List String)
    (f : List (String × String)) (fl : List (String × CorrectionFlag))
    (h : pstrip (aget f c) ≠ "") :
    rule13Go A E 0 (c :: rest) f fl = rule13Go A E 1 rest f fl := by
  rw [rule13Go]
  simp [h]

theorem rule13Go_pos_nonempty (A E : List String) (idx : Nat) (c : String)
    (rest : List String) (f : List (String × String))
    (fl : List (String × CorrectionFlag)) (hidx : idx ≠ 0)
    (h : pstrip (aget f c) ≠ "") :
    rule13Go A E idx (c :: rest) f fl = rule13Go A E (idx + 1) rest f fl := by
  rw [rule13Go]
  simp [hidx, h]

theorem rule13Go_pos_empty_skip (A E : List String) (idx : Nat) (c : String)
    (rest : List String) (f : List (String × String))
    (fl : List (String × CorrectionFlag)) (hidx : idx ≠ 0)
    (h : pstrip (aget f c) = "") (he : E.contains c = true) :
    rule13Go A E idx (c :: rest) f fl = rule13Go A E (idx + 1) rest f fl := by
  have he' : c ∈ E := by simpa using he
  rw [rule13Go]
  simp [hidx, h, he']

theorem rule13Go_pos_empty_copy (A E : List String) (idx : Nat) (c : String)
    (rest : List String) (f : List (String × String))
    (fl : List (String × CorrectionFlag)) (v : String) (hidx : idx ≠ 0)
    (h : pstrip (aget f c) = "") (he : E.contains c = false)
    (hf : findPrevValue f A E idx = some v) :
    rule13Go A E idx (c :: rest) f fl =
      rule13Go A E (idx + 1) rest (aset f c v) (fl ++ [(c, CorrectionFlag.copied)]) := by
  have he' : c ∉ E := by simpa using he
  rw [rule13Go]
  simp [hidx, h, he', hf]

theorem rule13Go_pos_empty_none (A E : List String) (idx : Nat) (c : String)
    (rest : List String) (f : List (String × String))
    (fl : List (String × CorrectionFlag)) (hidx : idx ≠ 0)
    (h : pstrip (aget f c) = "") (he : E.contains c = false)
    (hf : findPrevValue f A E idx = none) :
    rule13Go A E idx (c :: rest) f fl = rule13Go A E (idx + 1) rest f fl := by
  have he' : c ∉ E := by simpa using he
  rw [rule13Go]
  simp [hidx, h, he', hf]

theorem rule13Go_preserves_nonempty (A E : List String) (c : String) :
    ∀ (suffix : List String) (idx : Nat) (f : List (String × String))
      (fl : List (String × CorrectionFlag)),
      pstrip (aget f c) ≠ "" →
      aget (rule13Go A E idx suffix f fl).1 c = aget f c ∧
      (∀ x, (c, x) ∈ (rule13Go A E idx suffix f fl).2 ↔ (c, x) ∈ fl) := by
  intro suffix
  induction suffix with
  | nil =>
    intro idx f fl h
    rw [rule13Go_nil]
    exact ⟨rfl, fun x => Iff.rfl⟩
  | cons c₀ rest ih =>
    intro idx f fl h
    by_cases hidx : idx = 0
    · subst hidx
      by_cases h₀ : pstrip (aget f c₀) = ""
      · have hne : c₀ ≠ c := fun he => h (he ▸ h₀)
        rw [rule13Go_zero_empty _ _ _ _ _ _ h₀]
        have hpres : aget (aset f c₀ "0") c = aget f c := aget_aset_ne _ _ _ _ hne
        obtain ⟨h1, h2⟩ := ih 1 (aset f c₀ "0") _ (by rw [hpres]; exact h)
        refine ⟨h1.trans hpres, fun x => (h2 x).trans ?_⟩
        simp [List.mem_append, Prod.ext_iff, Ne.symm hne]
      · rw [rule13Go_zero_nonempty _ _ _ _ _ _ h₀]
        exact ih 1 f fl h
    · by_cases h₀ : pstrip (aget f c₀) = ""
      · by_cases hec : E.contains c₀ = true
        · rw [rule13Go_pos_empty_skip _ _ _ _ _ _ _ hidx h₀ hec]
          exact ih _ f fl h
        · have hec' : E.contains c₀ = false := by
            exact Bool.not_eq_true _ ▸ eq_false_of_ne_true hec
          cases hf : findPrevValue f A E idx with
          | some v =>
            have hne : c₀ ≠ c := fun he => h (he ▸ h₀)
            rw [rule13Go_pos_empty_copy _ _ _ _ _ _ _ v hidx h₀ hec' hf]
            have hpres : aget (aset f c₀ v) c = aget f c := aget_aset_ne _ _ _ _ hne
            obtain ⟨h1, h2⟩ := ih _ (aset f c₀ v) _ (by rw [hpres]; exact h)
            refine ⟨h1.trans hpres, fun x => (h2 x).trans ?_⟩
            simp [List.mem_append, Prod.ext_iff, Ne.symm hne]
          | none =>
            rw [rule13Go_pos_empty_none _ _ _ _ _ _ _ hidx h₀ hec' hf]
            exact ih _ f fl h
      · rw [rule13Go_pos_nonempty _ _ _ _ _ _ _ hidx h₀]
        exact ih _ f fl h

theorem rule13Go_preserves_ecs (A E : List String) (c : String)
    (hc : E.contains c = true) :
    ∀ (suffix : List String) (idx : Nat) (f : List (String × String))
      (fl : List (String × CorrectionFlag)),
      (idx = 0 → suffix.head? ≠ some c) →
      aget (rule13Go A E idx suffix f fl).1 c = aget f c ∧
      (∀ x, (c, x) ∈ (rule13Go A E idx suffix f fl).2 ↔ (c, x) ∈ fl) := by
  intro suffix
  induction suffix with
  | nil =>
    intro idx f fl _
    rw [rule13Go_nil]
    exact ⟨rfl, fun x => Iff.rfl⟩
  | cons c₀ rest ih =>
    intro idx f fl hhd
    by_cases hidx : idx = 0
    · subst hidx
      have hne : c₀ ≠ c := by
        intro he
        exact hhd rfl (by rw [he]; rfl)
      by_cases h₀ : pstrip (aget f c₀) = ""
      · rw [rule13Go_zero_empty _ _ _ _ _ _ h₀]
        have hpres : aget (aset f c₀ "0") c = aget f c := aget_aset_ne _ _ _ _ hne
        obtain ⟨h1, h2⟩ := ih 1 (aset f c₀ "0") _ (by intro h1; simp at h1)
        refine ⟨h1.trans hpres, fun x => (h2 x).trans ?_⟩
        simp [List.mem_append, Prod.ext_iff, Ne.symm hne]
      · rw [rule13Go_zero_nonempty _ _ _ _ _ _ h₀]
        exact ih 1 f fl (by intro h1; simp at h1)
    · by_cases h₀ : pstrip (aget f c₀) = ""
      · by_cases hec : E.contains c₀ = true
        · rw [rule13Go_pos_empty_skip _ _ _ _ _ _ _ hidx h₀ hec]
          exact ih (idx + 1) f fl (by intro h1; simp at h1)
        · have hec' : E.contains c₀ = false := by
            exact Bool.not_eq_true _ ▸ eq_false_of_ne_true hec
          have hne : c₀ ≠ c := by
            intro he
            rw [he] at hec'
            rw [hec'] at hc
            cases hc
          cases hf : findPrevValue f A E idx with
          | some v =>
            rw [rule13Go_pos_empty_copy _ _ _ _ _ _ _ v hidx h₀ hec' hf]
            have hpres : aget (aset f c₀ v) c = aget f c := aget_aset_ne _ _ _ _ hne
            obtain ⟨h1, h2⟩ := ih (idx + 1) (aset f c₀ v) _ (by intro h1; simp at h1)
            refine ⟨h1.trans hpres, fun x => (h2 x).trans ?_⟩
            simp [List.mem_append, Prod.ext_iff, Ne.symm hne]
          | none =>
            rw [rule13Go_pos_empty_none _ _ _ _ _ _ _ hidx h₀ hec' hf]
            exact ih (idx + 1) f fl (by intro h1; simp at h1)
      · rw [rule13Go_pos_nonempty _ _ _ _ _ _ _ hidx h₀]
        exact ih (idx + 1) f fl (by intro h1; simp at h1)

theorem rule7Go_nil (E : List String) (f : List (String × String)) :
    rule7Go E [] f = f := rfl

theorem rule7Go_skip_ecs (E : List String) (c₀ : String) (rest : List String)
    (f : List (String × String)) (he : E.contains c₀ = true) :
    rule7Go E (c₀ :: rest) f = rule7Go E rest f := by
  have he' : c₀ ∈ E := by simpa using he
  rw [rule7Go]
  simp [he']

theorem rule7Go_write (E : List String) (c₀ : String) (rest : List String)
    (f : List (String × String)) (he : E.contains c₀ = false)
    (hcur : pstrip (aget f c₀) ≠ "")
    (hval : validate_experiment_value (pstrip (aget f c₀)) ≠ pstrip (aget f c₀)) :
    rule7Go E (c₀ :: rest) f =
      rule7Go E rest (aset f c₀ (validate_experiment_value (pstrip (aget f c₀)))) := by
  have he' : c₀ ∉ E := by simpa using he
  rw [rule7Go]
  simp [he', hcur, hval]

theorem rule7Go_nowrite (E : List String) (c₀ : String) (rest : List String)
    (f : List (String × String)) (he : E.contains c₀ = false)
    (hcur : pstrip (aget f c₀) ≠ "")
    (hval : validate_experiment_value (pstrip (aget f c₀)) = pstrip (aget f c₀)) :
    rule7Go E (c₀ :: rest) f = rule7Go E rest f := by
  have he' : c₀ ∉ E := by simpa using he
  rw [rule7Go]
  simp [he', hcur, hval]

theorem rule7Go_blank (E : List String) (c₀ : String) (rest : List String)
    (f : List (String × String)) (he : E.contains c₀ = false)
    (hcur : pstrip (aget f c₀) = "") :
    rule7Go E (c₀ :: rest) f = rule7Go E rest f := by
  have he' : c₀ ∉ E := by simpa using he
  rw [rule7Go]
  simp [he', hcur]

theorem rule7Go_preserves_ecs (E : List String) (c : String)
    (hc : E.contains c = true) :
    ∀ (suffix : List String) (f : List (String × String)),
      aget (rule7Go E suffix f) c = aget f c := by
  intro suffix
  induction suffix with
  | nil => intro f; rfl
  | cons c₀ rest ih =>
    intro f
    by_cases hec : E.contains c₀ = true
    · rw [rule7Go_skip_ecs _ _ _ _ hec]; exact ih f
    · have hec' : E.contains c₀ = false := eq_false_of_ne_true hec
      have hne : c₀ ≠ c := by
        intro he
        rw [he, hc] at hec'
        cases hec'
      by_cases hcur : pstrip (aget f c₀) = ""
      · rw [rule7Go_blank _ _ _ _ hec' hcur]; exact ih f
      · by_cases hval : validate_experiment_value (pstrip (aget f c₀)) = pstrip (aget f c₀)
        · rw [rule7Go_nowrite _ _ _ _ hec' hcur hval]; exact ih f
        · rw [rule7Go_write _ _ _ _ hec' hcur hval]
          exact (ih _).trans (aget_aset_ne _ _ _ _ hne)

theorem rule7Go_keeps_zero (E : List String) (c : String) :
    ∀ (suffix : List String) (f : List (String × String)),
      aget f c = "0" → aget (rule7Go E suffix f) c = "0" := by
  intro suffix
  induction suffix with
  | nil => intro f h; exact h
  | cons c₀ rest ih =>
    intro f h
    by_cases hec : E.contains c₀ = true
    · rw [rule7Go_skip_ecs _ _ _ _ hec]; exact ih f h
    · have hec' : E.contains c₀ = false := eq_false_of_ne_true hec
      by_cases hcc : c₀ = c
      · subst hcc
        have hcur : pstrip (aget f c₀) = "0" := by rw [h]; decide
        have hval : validate_experiment_value (pstrip (aget f c₀)) = pstrip (aget f c₀) := by
          rw [hcur]; decide
        rw [rule7Go_nowrite _ _ _ _ hec' (by rw [hcur]; decide) hval]
        exact ih f h
      · by_cases hcur : pstrip (aget f c₀) = ""
        · rw [rule7Go_blank _ _ _ _ hec' hcur]; exact ih f h
        · by_cases hval : validate_experiment_value (pstrip (aget f c₀)) = pstrip (aget f c₀)
          · rw [rule7Go_nowrite _ _ _ _ hec' hcur hval]; exact ih f h
          · rw [rule7Go_write _ _ _ _ hec' hcur hval]
            exact ih _ ((aget_aset_ne _ _ _ _ hcc).trans h)

theorem rule7Go_rejects (E : List String) (c : String)
    (hc : E.contains c = false) :
    ∀ (suffix : List String) (f : List (String × String)),
      c ∈ suffix → pstrip (aget f c) ≠ "" →
      validate_experiment_value (pstrip (aget f c)) = "0" →
      pstrip (aget f c) ≠ "0" →
      aget (rule7Go E suffix f) c = "0" := by
  intro suffix
  induction suffix with
  | nil => intro f hmem; simp at hmem
  | cons c₀ rest ih =>
    intro f hmem hcur hrej hne0
    by_cases hcc : c₀ = c
    · subst hcc
      have hval : validate_experiment_value (pstrip (aget f c₀)) ≠ pstrip (aget f c₀) := by
        rw [hrej]
        exact fun h => hne0 h.symm
      rw [rule7Go_write _ _ _ _ hc hcur hval, hrej]
      exact rule7Go_keeps_zero E c₀ rest _ (aget_aset_self _ _ _)
    · have hmem' : c ∈ rest := by
        rcases List.mem_cons.mp hmem with h | h
        · exact absurd h.symm hcc
        · exact h
      by_cases hec : E.contains c₀ = true
      · rw [rule7Go_skip_ecs _ _ _ _ hec]
        exact ih f hmem' hcur hrej hne0
      · have hec' : E.contains c₀ = false := eq_false_of_ne_true hec
        by_cases hcur₀ : pstrip (aget f c₀) = ""
        · rw [rule7Go_blank _ _ _ _ hec' hcur₀]
          exact ih f hmem' hcur hrej hne0
        · by_cases hval : validate_experiment_value (pstrip (aget f c₀)) = pstrip (aget f c₀)
          · rw [rule7Go_nowrite _ _ _ _ hec' hcur₀ hval]
            exact ih f hmem' hcur hrej hne0
          · rw [rule7Go_write _ _ _ _ hec' hcur₀ hval]
            have hpres : aget (aset f c₀ (validate_experiment_value (pstrip (aget f c₀)))) c =
                aget f c := aget_aset_ne _ _ _ _ hcc
            refine ih _ hmem' ?_ ?_ ?_
            · rw [hpres]; exact hcur
            · rw [hpres]; exact hrej
            · rw [hpres]; exact hne0

theorem findCode_aset (f : List (String × String)) (k v : String)
    (hk : k.data.map pyLowerChar ≠ "code".data) :
    findCode (aset f k v) = findCode f := by
  induction f with
  | nil =>
    rw [aset, findCode, findCode, List.find?_cons_of_neg _ (by simpa using hk)]
  | cons p rest ih =>
    by_cases hp : p.1 = k
    · rw [aset, if_pos hp, findCode, findCode,
        List.find?_cons_of_neg _ (by simpa using hk),
        List.find?_cons_of_neg _ (by rw [hp]; simpa using hk)]
    · rw [aset, if_neg hp]
      by_cases hpc : p.1.data.map pyLowerChar = "code".data
      · rw [findCode, findCode, List.find?_cons_of_pos _ (by simpa using hpc),
          List.find?_cons_of_pos _ (by simpa using hpc)]
      · rw [findCode, findCode, List.find?_cons_of_neg _ (by simpa using hpc),
          List.find?_cons_of_neg _ (by simpa using hpc)]
        exact ih

theorem rule6Phase_aget_ne (f₀ : List (String × String)) (c : String)
    (hc : c ≠ "Phase") : aget (rule6Phase f₀) c = aget f₀ c := by
  have ha : ∀ (g : List (String × String)) (v : String),
      aget (aset g "Phase" v) c = aget g c :=
    fun g v => aget_aset_ne g "Phase" v c (Ne.symm hc)
  unfold rule6Phase
  split_ifs <;> simp [ha]

theorem rule4Phase_aget_ne (prev : String) (f₁ : List (String × String))
    (c : String) (hc : c ≠ "Phase") :
    aget (rule4Phase prev f₁).1 c = aget f₁ c := by
  have ha : ∀ (g : List (String × String)) (v : String),
      aget (aset g "Phase" v) c = aget g c :=
    fun g v => aget_aset_ne g "Phase" v c (Ne.symm hc)
  unfold rule4Phase
  split_ifs <;> simp [ha]

theorem phaseSteps_aget_ne (prev : String) (f₀ : List (String × String))
    (c : String) (hc : c ≠ "Phase") :
    aget (phaseSteps prev f₀).1 c = aget f₀ c := by
  rw [phaseSteps, rule4Phase_aget_ne prev _ c hc, rule6Phase_aget_ne f₀ c hc]

theorem phaseSteps_findCode (prev : String) (f₀ : List (String × String)) :
    findCode (phaseSteps prev f₀).1 = findCode f₀ := by
  have hk : ("Phase" : String).data.map pyLowerChar ≠ "code".data := by decide
  have ha : ∀ (g : List (String × String)) (v : String),
      findCode (aset g "Phase" v) = findCode g :=
    fun g v => findCode_aset g "Phase" v hk
  have h₆ : findCode (rule6Phase f₀) = findCode f₀ := by
    unfold rule6Phase
    split_ifs <;> simp [ha]
  have h₄ : findCode (rule4Phase prev (rule6Phase f₀)).1 = findCode (rule6Phase f₀) := by
    unfold rule4Phase
    split_ifs <;> simp [ha]
  rw [phaseSteps, h₄, h₆]

theorem mem_detect_empty_columns (ings : List Ingredient) (cols : List String)
    (c : String) :
    c ∈ detect_empty_columns ings cols ↔
      c ∈ cols ∧ ∀ ing ∈ ings, pstrip (aget ing.fields c) = "" := by
  rw [detect_empty_columns, List.mem_filter]
  simp [List.all_eq_true]

theorem applyGo_get? (cols ecs : List String) :
    ∀ (ings : List Ingredient) (prev : String) (i : Nat) (ing : Ingredient),
      ings.get? i = some ing →
      ∃ p, (applyGo cols ecs prev ings).get? i =
        some (processIngredient cols ecs p ing).1 := by
  intro ings
  induction ings with
  | nil => intro prev i ing h; simp at h
  | cons hd tl ih =>
    intro prev i ing h
    cases i with
    | zero =>
      rw [List.get?_cons_zero, Option.some_inj] at h
      subst h
      exact ⟨prev, rfl⟩
    | succ n =>
      rw [List.get?_cons_succ] at h
      obtain ⟨p, hp⟩ := ih (processIngredient cols ecs prev hd).2 n ing h
      exact ⟨p, hp⟩

theorem processIngredient_coded (cols ecs : List String) (prev : String)
    (ing : Ingredient)
    (h : codeTruthy (findCode (phaseSteps prev ing.fields).1) = true) :
    processIngredient cols ecs prev ing =
      (⟨rule7Go ecs cols (rule13Go cols ecs 0 cols (phaseSteps prev ing.fields).1 []).1,
        (rule13Go cols ecs 0 cols (phaseSteps prev ing.fields).1 []).2⟩,
       (phaseSteps prev ing.fields).2) := by
  rw [processIngredient]
  simp [h]

theorem processIngredient_coded_fields (cols ecs : List String) (prev : String)
    (ing : Ingredient)
    (h : codeTruthy (findCode (phaseSteps prev ing.fields).1) = true) :
    (processIngredient cols ecs prev ing).1.fields =
      rule7Go ecs cols (rule13Go cols ecs 0 cols (phaseSteps prev ing.fields).1 []).1 := by
  rw [processIngredient_coded cols ecs prev ing h]

theorem processIngredient_coded_corrections (cols ecs : List String) (prev : String)
    (ing : Ingredient)
    (h : codeTruthy (findCode (phaseSteps prev ing.fields).1) = true) :
    (processIngredient cols ecs prev ing).1.corrections =
      (rule13Go cols ecs 0 cols (phaseSteps prev ing.fields).1 []).2 := by
  rw [processIngredient_coded cols ecs prev ing h]

theorem processIngredient_uncoded (cols ecs : List String) (prev : String)
    (ing : Ingredient)
    (h : codeTruthy (findCode (phaseSteps prev ing.fields).1) = false) :
    processIngredient cols ecs prev ing =
      (⟨(phaseSteps prev ing.fields).1, ing.corrections⟩,
       (phaseSteps prev ing.fields).2) := by
  rw [processIngredient]
  simp [h]

theorem processIngredient_rejects (cols ecs : List String) (prev : String)
    (ing : Ingredient) (c : String)
    (hcode : codeTruthy (findCode ing.fields) = true)
    (hcol : c ∈ cols) (hph : c ≠ "Phase")
    (hecs : ecs.contains c = false)
    (hval : pstrip (aget ing.fields c) ≠ "")
    (hrej : validate_experiment_value (pstrip (aget ing.fields c)) = "0")
    (hne0 : pstrip (aget ing.fields c) ≠ "0") :
    aget (processIngredient cols ecs prev ing).1.fields c = "0" ∧
    c ∉ (processIngredient cols ecs prev ing).1.corrections.map Prod.fst := by
  have hcode' : codeTruthy (findCode (phaseSteps prev ing.fields).1) = true := by
    rw [phaseSteps_findCode]; exact hcode
  rw [processIngredient_coded cols ecs prev ing hcode']
  have hgp : aget (phaseSteps prev ing.fields).1 c = aget ing.fields c :=
    phaseSteps_aget_ne prev ing.fields c hph
  have h₁ : pstrip (aget (phaseSteps prev ing.fields).1 c) ≠ "" := by
    rw [hgp]; exact hval
  obtain ⟨h13, hfl⟩ :=
    rule13Go_preserves_nonempty cols ecs c cols 0 (phaseSteps prev ing.fields).1 [] h₁
  have hv13 : aget (rule13Go cols ecs 0 cols (phaseSteps prev ing.fields).1 []).1 c =
      aget ing.fields c := h13.trans hgp
  constructor
  · refine rule7Go_rejects ecs c hecs cols _ hcol ?_ ?_ ?_
    · rw [hv13]; exact hval
    · rw [hv13]; exact hrej
    · rw [hv13]; exact hne0
  · intro hmem
    rw [List.mem_map] at hmem
    obtain ⟨⟨c', x⟩, hx, hcx⟩ := hmem
    simp only [Prod.fst] at hcx
    subst hcx
    have := (hfl x).mp hx
    simp at this

theorem processIngredient_ecs (cols ecs : List String) (prev : String)
    (ing : Ingredient) (c : String)
    (hecs : ecs.contains c = true) (hhd : cols.head? ≠ some c)
    (hph : c ≠ "Phase") (hcorr : c ∉ ing.corrections.map Prod.fst) :
    aget (processIngredient cols ecs prev ing).1.fields c = aget ing.fields c ∧
    c ∉ (processIngredient cols ecs prev ing).1.corrections.map Prod.fst := by
  by_cases hcode : codeTruthy (findCode (phaseSteps prev ing.fields).1) = true
  · rw [processIngredient_coded cols ecs prev ing hcode]
    have hgp : aget (phaseSteps prev ing.fields).1 c = aget ing.fields c :=
      phaseSteps_aget_ne prev ing.fields c hph
    obtain ⟨h13, hfl⟩ :=
      rule13Go_preserves_ecs cols ecs c hecs cols 0 (phaseSteps prev ing.fields).1 []
        (fun _ => hhd)
    constructor
    · exact (rule7Go_preserves_ecs ecs c hecs cols _).trans (h13.trans hgp)
    · intro hmem
      rw [List.mem_map] at hmem
      obtain ⟨⟨c', x⟩, hx, hcx⟩ := hmem
      simp only [Prod.fst] at hcx
      subst hcx
      have := (hfl x).mp hx
      simp at this
  · have hcode' : codeTruthy (findCode (phaseSteps prev ing.fields).1) = false :=
      eq_false_of_ne_true hcode
    rw [processIngredient_uncoded cols ecs prev ing hcode']
    exact ⟨phaseSteps_aget_ne prev ing.fields c hph, hcorr⟩

theorem processIngredient_first_zero (ecs : List String) (prev : String)
    (ing : Ingredient) (c : String) (rest : List String)
    (hph : c ≠ "Phase") (hempty : pstrip (aget ing.fields c) = "")
    (hecs : ecs.contains c = true)
    (hcode : codeTruthy (findCode ing.fields) = true) :
    aget (processIngredient (c :: rest) ecs prev ing).1.fields c = "0" ∧
    (c, CorrectionFlag.filled_zero) ∈
      (processIngredient (c :: rest) ecs prev ing).1.corrections := by
  have hcode' : codeTruthy (findCode (phaseSteps prev ing.fields).1) = true := by
    rw [phaseSteps_findCode]; exact hcode
  rw [processIngredient_coded_fields (c :: rest) ecs prev ing hcode',
    processIngredient_coded_corrections (c :: rest) ecs prev ing hcode']
  have hgp : aget (phaseSteps prev ing.fields).1 c = aget ing.fields c :=
    phaseSteps_aget_ne prev ing.fields c hph
  have hemp1 : pstrip (aget (phaseSteps prev ing.fields).1 c) = "" := by
    rw [hgp]; exact hempty
  have hstep : rule13Go (c :: rest) ecs 0 (c :: rest) (phaseSteps prev ing.fields).1 [] =
      rule13Go (c :: rest) ecs 1 rest (aset (phaseSteps prev ing.fields).1 c "0")
        [(c, CorrectionFlag.filled_zero)] := by
    rw [rule13Go_zero_empty _ _ _ _ _ _ hemp1]
    rfl
  have hnz : pstrip (aget (aset (phaseSteps prev ing.fields).1 c "0") c) ≠ "" := by
    rw [aget_aset_self]
    decide
  obtain ⟨h13, hfl⟩ :=
    rule13Go_preserves_nonempty (c :: rest) ecs c rest 1
      (aset (phaseSteps prev ing.fields).1 c "0") [(c, CorrectionFlag.filled_zero)] hnz
  have hv : aget (rule13Go (c :: rest) ecs 0 (c :: rest)
      (phaseSteps prev ing.fields).1 []).1 c = "0" := by
    rw [hstep, h13, aget_aset_self]
  constructor
  · exact (rule7Go_preserves_ecs ecs c hecs (c :: rest)
      (rule13Go (c :: rest) ecs 0 (c :: rest) (phaseSteps prev ing.fields).1 []).1).trans hv
  · rw [hstep]
    exact (hfl CorrectionFlag.filled_zero).mpr (by simp)

theorem validate_eq_zero (v : String) (hne : v ≠ "") (hs : pstrip v = v)
    (hTO : containsTO v = false) (h1 : matchPlainNum v.data = false)
    (h2 : matchIneq v.data = false) (h3 : matchRange v.data = false)
    (h4 : matchPercent v.data = false) (h01 : v ≠ "0") (h02 : v ≠ "0.0") :
    validate_experiment_value v = "0" := by
  rw [validate_experiment_value, if_neg hne]
  simp only [hs, hTO, h1, h2, h3, h4]
  simp [h01, h02]

/-! ## Claim C4 -/

/-- Claim C4 (confirmed): a non-empty measurement value in a column
outside the Empty-Column Set that matches none of the recognized numeric
shapes (and has no TO-notation) is replaced by "0" by the final
validation, and no provenance flag is recorded for the column; in
particular the Korean annotation "확인요청" becomes "0". -/
theorem text_rejection_rule :
    (∀ (ings : List Ingredient) (cols : List String) (i : Nat)
      (ing : Ingredient) (c : String),
      ings.get? i = some ing →
      codeTruthy (findCode ing.fields) = true →
      c ∈ cols → c ≠ "Phase" →
      c ∉ detect_empty_columns ings cols →
      pstrip (aget ing.fields c) ≠ "" →
      containsTO (pstrip (aget ing.fields c)) = false →
      matchPlainNum (pstrip (aget ing.fields c)).data = false →
      matchIneq (pstrip (aget ing.fields c)).data = false →
      matchRange (pstrip (aget ing.fields c)).data = false →
      matchPercent (pstrip (aget ing.fields c)).data = false →
      pstrip (aget ing.fields c) ≠ "0" →
      pstrip (aget ing.fields c) ≠ "0.0" →
      ∃ ing', (apply_data_correction_rules ings cols).get? i = some ing' ∧
        aget ing'.fields c = "0" ∧
        c ∉ ing'.corrections.map Prod.fst) ∧
    validate_experiment_value "확인요청" = "0" := by
  constructor
  · intro ings cols i ing c hget hcode hcol hph hnotecs hval hTO h1 h2 h3 h4 h01 h02
    have hrej : validate_experiment_value (pstrip (aget ing.fields c)) = "0" :=
      validate_eq_zero _ hval (pstrip_idem _) hTO h1 h2 h3 h4 h01 h02
    have hcols_ne : ¬cols.isEmpty = true := by
      intro h
      rw [List.isEmpty_iff] at h
      rw [h] at hcol
      simp at hcol
    rw [apply_data_correction_rules, if_neg hcols_ne]
    have hecsF : (detect_empty_columns ings cols).contains c = false := by
      simpa using hnotecs
    obtain ⟨p, hp⟩ :=
      applyGo_get? cols (detect_empty_columns ings cols) ings "" i ing hget
    refine ⟨(processIngredient cols (detect_empty_columns ings cols) p ing).1, hp, ?_, ?_⟩
    · exact (processIngredient_rejects cols _ p ing c hcode hcol hph hecsF
        hval hrej h01).1
    · exact (processIngredient_rejects cols _ p ing c hcode hcol hph hecsF
        hval hrej h01).2
  · decide

/-- Claim C4, witness: the rejection theorem at a concrete one-row table
holding the value "확인요청". -/
theorem text_rejection_rule_witness :
    ∃ ing', (apply_data_correction_rules
        [⟨[("Code", "ABC"), ("E1", "확인요청"), ("E2", "1")], []⟩]
        ["E1", "E2"]).get? 0 = some ing' ∧
      aget ing'.fields "E1" = "0" ∧
      "E1" ∉ ing'.corrections.map Prod.fst :=
  text_rejection_rule.1
    [⟨[("Code", "ABC"), ("E1", "확인요청"), ("E2", "1")], []⟩] ["E1", "E2"] 0
    ⟨[("Code", "ABC"), ("E1", "확인요청"), ("E2", "1")], []⟩ "E1"
    (by rfl) (by decide) (by decide) (by decide) (by decide) (by decide)
    (by decide) (by decide) (by decide) (by decide) (by decide) (by decide)
    (by decide)

/-! ## Claim C1 -/

/-- Claim C1 (corrected), counterexample: an all-empty first measurement
column is detected in the Empty-Column Set, yet the first-column rule
still zero-fills it — so "no correction rule changes any ingredient's
value for that column" is false for the first column. -/
theorem empty_first_column_zero_filled :
    detect_empty_columns [⟨[("Code", "ABC"), ("E1", ""), ("E2", "2")], []⟩]
      ["E1", "E2"] = ["E1"] ∧
    (apply_data_correction_rules [⟨[("Code", "ABC"), ("E1", ""), ("E2", "2")], []⟩]
      ["E1", "E2"]).map (fun g => (aget g.fields "E1", g.corrections)) =
      [("0", [("E1", CorrectionFlag.filled_zero)])] := by
  exact ⟨by decide, by decide⟩

/-- Claim C1 (corrected), amended: every measurement column whose value is
blank in every ingredient is placed in the Empty-Column Set; such a column
is never forward-filled and never text-rejected (its values and its
absence from the provenance map are preserved) — but the FIRST measurement
column, even when it is in the Empty-Column Set, is still zero-filled by
the first-column rule in every record carrying a code, with provenance
`filled_zero`. -/
theorem empty_column_detection_and_protection :
    (∀ (ings : List Ingredient) (cols : List String) (c : String),
      c ∈ cols → (∀ ing ∈ ings, pstrip (aget ing.fields c) = "") →
      c ∈ detect_empty_columns ings cols) ∧
    (∀ (ings : List Ingredient) (cols : List String) (c : String) (i : Nat)
      (ing : Ingredient),
      c ∈ detect_empty_columns ings cols →
      cols.head? ≠ some c → c ≠ "Phase" →
      ings.get? i = some ing → c ∉ ing.corrections.map Prod.fst →
      ∃ ing', (apply_data_correction_rules ings cols).get? i = some ing' ∧
        aget ing'.fields c = aget ing.fields c ∧
        c ∉ ing'.corrections.map Prod.fst) ∧
    (∀ (ings : List Ingredient) (cols : List String) (c : String) (i : Nat)
      (ing : Ingredient),
      c ∈ detect_empty_columns ings cols →
      cols.head? = some c → c ≠ "Phase" →
      ings.get? i = some ing → codeTruthy (findCode ing.fields) = true →
      ∃ ing', (apply_data_correction_rules ings cols).get? i = some ing' ∧
        aget ing'.fields c = "0" ∧
        (c, CorrectionFlag.filled_zero) ∈ ing'.corrections) := by
  refine ⟨?_, ?_, ?_⟩
  · intro ings cols c hcol hall
    exact (mem_detect_empty_columns ings cols c).mpr ⟨hcol, hall⟩
  · intro ings cols c i ing hdet hhd hph hget hcorr
    have hcol : c ∈ cols := ((mem_detect_empty_columns ings cols c).mp hdet).1
    have hcols_ne : ¬cols.isEmpty = true := by
      intro h
      rw [List.isEmpty_iff] at h
      rw [h] at hcol
      simp at hcol
    rw [apply_data_correction_rules, if_neg hcols_ne]
    have hecsT : (detect_empty_columns ings cols).contains c = true := by
      simpa using hdet
    obtain ⟨p, hp⟩ :=
      applyGo_get? cols (detect_empty_columns ings cols) ings "" i ing hget
    refine ⟨(processIngredient cols (detect_empty_columns ings cols) p ing).1, hp, ?_, ?_⟩
    · exact (processIngredient_ecs cols _ p ing c hecsT hhd hph hcorr).1
    · exact (processIngredient_ecs cols _ p ing c hecsT hhd hph hcorr).2
  · intro ings cols c i ing hdet hhd hph hget hcode
    have hcol : c ∈ cols := ((mem_detect_empty_columns ings cols c).mp hdet).1
    have hcols_ne : ¬cols.isEmpty = true := by
      intro h
      rw [List.isEmpty_iff] at h
      rw [h] at hcol
      simp at hcol
    have hempty : pstrip (aget ing.fields c) = "" :=
      ((mem_detect_empty_columns ings cols c).mp hdet).2 ing (List.get?_mem hget)
    have hecsT : (detect_empty_columns ings cols).contains c = true := by
      simpa using hdet
    rw [apply_data_correction_rules, if_neg hcols_ne]
    obtain ⟨p, hp⟩ :=
      applyGo_get? cols (detect_empty_columns ings cols) ings "" i ing hget
    obtain ⟨rest, hrest⟩ : ∃ rest, cols = c :: rest := by
      cases cols with
      | nil => cases hhd
      | cons c₀ r =>
        rw [List.head?_cons, Option.some_inj] at hhd
        exact ⟨r, by rw [hhd]⟩
    subst hrest
    refine ⟨(processIngredient (c :: rest) (detect_empty_columns ings (c :: rest)) p ing).1,
      hp, ?_, ?_⟩
    · exact (processIngredient_first_zero _ p ing c rest hph hempty hecsT hcode).1
    · exact (processIngredient_first_zero _ p ing c rest hph hempty hecsT hcode).2

/-- Claim C1, witness: the protection branch at a concrete table whose
second measurement column is entirely blank — its value and provenance are
untouched by the correction pass. -/
theorem empty_column_detection_and_protection_witness :
    ∃ ing', (apply_data_correction_rules
        [⟨[("Code", "ABC"), ("E1", "1"), ("E2", "")], []⟩] ["E1", "E2"]).get? 0 =
      some ing' ∧
      aget ing'.fields "E2" =
        aget ((⟨[("Code", "ABC"), ("E1", "1"), ("E2", "")], []⟩ : Ingredient)).fields "E2" ∧
      "E2" ∉ ing'.corrections.map Prod.fst :=
  empty_column_detection_and_protection.2.1
    [⟨[("Code", "ABC"), ("E1", "1"), ("E2", "")], []⟩] ["E1", "E2"] "E2" 0
    ⟨[("Code", "ABC"), ("E1", "1"), ("E2", "")], []⟩
    (by decide) (by decide) (by decide) (by rfl) (by decide)

/-! ## Claim C3 -/

theorem findPrevValue_eq_find (f : List (String × String)) (A E : List String) :
    ∀ idx, idx ≤ A.length →
      findPrevValue f A E idx =
        ((A.take idx).reverse.find?
          (fun c => !E.contains c && pstrip (aget f c) != "")).map
          (fun c => pstrip (aget f c)) := by
  intro idx
  induction idx with
  | zero => intro _; rfl
  | succ i ih =>
    intro hle
    have hi : i < A.length := by omega
    have hx : A[i]? = some (A[i]) := List.getElem?_eq_getElem hi
    have hgd : A.getD i "" = A[i] := by
      rw [List.getD_eq_getElem?_getD, hx]
      rfl
    have htk : (A.take (i + 1)).reverse = (A[i]) :: (A.take i).reverse := by
      rw [List.take_succ, hx]
      simp
    rw [htk]
    simp only [findPrevValue, hgd]
    by_cases hec : E.contains (A[i]) = true
    · have hmem : (A[i]) ∈ E := by simpa using hec
      rw [if_pos hec, List.find?_cons_of_neg _ (by simp [hmem])]
      exact ih (by omega)
    · have hec' : E.contains (A[i]) = false := eq_false_of_ne_true hec
      have hmem : (A[i]) ∉ E := by simpa using hec'
      rw [if_neg hec]
      by_cases hps : pstrip (aget f (A[i])) = ""
      · rw [if_neg (fun h => h hps),
          List.find?_cons_of_neg _ (by simp [hps])]
        exact ih (by omega)
      · rw [if_pos hps, List.find?_cons_of_pos _ (by simp [hmem, hps])]
        rfl

/-- Claim C3 (confirmed): the forward-fill rule — stated here as (1) the
backward search of RULE 3 returns the value of the nearest earlier
measurement column, skipping Empty-Column-Set columns, that holds a
non-empty value in the current record state; (2) processing a non-first
blank column outside the Empty-Column Set copies exactly that value with
provenance `copied`, and leaves the cell blank with no provenance when no
such value exists; and (3) the spec's concrete instance: the record
{X:"5", Y:"", Z:"5"} (in a table whose Empty-Column Set is empty) yields
Y = "5" with provenance {Y: copied}. -/
theorem forward_fill_rule :
    (∀ (f : List (String × String)) (A E : List String) (idx : Nat),
      idx ≤ A.length →
      findPrevValue f A E idx =
        ((A.take idx).reverse.find?
          (fun c => !E.contains c && pstrip (aget f c) != "")).map
          (fun c => pstrip (aget f c))) ∧
    (∀ (A E : List String) (idx : Nat) (c : String) (rest : List String)
      (f : List (String × String)) (fl : List (String × CorrectionFlag)),
      idx ≠ 0 → pstrip (aget f c) = "" → E.contains c = false →
      rule13Go A E idx (c :: rest) f fl =
        (match findPrevValue f A E idx with
         | some v => rule13Go A E (idx + 1) rest (aset f c v)
             (fl ++ [(c, CorrectionFlag.copied)])
         | none => rule13Go A E (idx + 1) rest f fl)) ∧
    detect_empty_columns
      [⟨[("Code", "ABC"), ("X", "5"), ("Y", ""), ("Z", "5")], []⟩,
       ⟨[("Code", "DEF"), ("X", "1"), ("Y", "2"), ("Z", "3")], []⟩]
      ["X", "Y", "Z"] = [] ∧
    (apply_data_correction_rules
      [⟨[("Code", "ABC"), ("X", "5"), ("Y", ""), ("Z", "5")], []⟩,
       ⟨[("Code", "DEF"), ("X", "1"), ("Y", "2"), ("Z", "3")], []⟩]
      ["X", "Y", "Z"]).map (fun g => (aget g.fields "Y", g.corrections)) =
      [("5", [("Y", CorrectionFlag.copied)]), ("2", [])] := by
  refine ⟨findPrevValue_eq_find, ?_, by decide, by decide⟩
  intro A E idx c rest f fl hidx h he
  cases hf : findPrevValue f A E idx with
  | some v => rw [rule13Go_pos_empty_copy _ _ _ _ _ _ _ v hidx h he hf]
  | none => rw [rule13Go_pos_empty_none _ _ _ _ _ _ _ hidx h he hf]

/-- Claim C3, witness: the backward-search characterization evaluated at a
concrete record whose previous column holds "5". -/
theorem forward_fill_rule_witness :
    findPrevValue [("X", "5"), ("Y", "")] ["X", "Y"] [] 1 =
      (((["X", "Y"] : List String).take 1).reverse.find?
        (fun c => !([] : List String).contains c &&
          pstrip (aget [("X", "5"), ("Y", "")] c) != "")).map
        (fun c => pstrip (aget [("X", "5"), ("Y", "")] c)) :=
  forward_fill_rule.1 [("X", "5"), ("Y", "")] ["X", "Y"] [] 1 (by decide)
